import Mathlib

/-!
Verification of the gitignore language-server core: pattern parser, parse
tree queries, AST derivation, completion engine and workspace document map.
The Rust source is shallowly embedded: parsing (chumsky combinators) is
modelled as deterministic recursive-descent functions over `List Char`
with absolute positions, spans being half-open offset intervals.
-/

namespace GIU

/-- Structured parse error: half-open span `[start, stop)` plus a message
(modelling `chumsky::error::Rich`). -/
structure ParseError where
  start : Nat
  stop : Nat
  msg : String
deriving Repr, DecidableEq

/-- Parse-tree node (Rust `Token`), each carrying its half-open span. -/
inductive Token where
  | file (start stop : Nat) (children : List Token)
  | path (start stop : Nat) (children : List Token)
  | segment (start stop : Nat) (value : String)
  | separator (start stop : Nat)
  | negate (start stop : Nat)
  | comment (start stop : Nat)

/-- Span start of a token (Rust `Token::get_span().start`). -/
def Token.start : Token → Nat
  | .file s _ _ => s
  | .path s _ _ => s
  | .segment s _ _ => s
  | .separator s _ => s
  | .negate s _ => s
  | .comment s _ => s

/-- Span end of a token (Rust `Token::get_span().end`). -/
def Token.stop : Token → Nat
  | .file _ e _ => e
  | .path _ e _ => e
  | .segment _ e _ => e
  | .separator _ e => e
  | .negate _ e => e
  | .comment _ e => e

/-- Children of a token, when it has any (Rust `Token::get_children`). -/
def Token.get_children : Token → Option (List Token)
  | .file _ _ cs => some cs
  | .path _ _ cs => some cs
  | _ => none

/-- Whether the token is a `Path` node. -/
def Token.isPath : Token → Bool
  | .path _ _ _ => true
  | _ => false

mutual

/-- Structural equality of tokens (Rust derived `PartialEq`), spans
included. -/
def Token.beq : Token → Token → Bool
  | .file s e cs, .file s' e' cs' => s == s' && e == e' && Token.beqList cs cs'
  | .path s e cs, .path s' e' cs' => s == s' && e == e' && Token.beqList cs cs'
  | .segment s e v, .segment s' e' v' => s == s' && e == e' && v == v'
  | .separator s e, .separator s' e' => s == s' && e == e'
  | .negate s e, .negate s' e' => s == s' && e == e'
  | .comment s e, .comment s' e' => s == s' && e == e'
  | _, _ => false

/-- Structural equality of token lists, pointwise. -/
def Token.beqList : List Token → List Token → Bool
  | [], [] => true
  | a :: as, b :: bs => Token.beq a b && Token.beqList as bs
  | _, _ => false

end

/-- Root of a parse (Rust `ParseTree`). -/
structure ParseTree where
  root : Token

/-- Newline characters recognised by `chumsky::text::newline`. -/
def isNewlineChar (c : Char) : Bool :=
  c = '\n' || c = '\r' || c = '\x0B' || c = '\x0C' ||
  c = '\u0085' || c = '\u2028' || c = '\u2029'

/-- Consume one newline at the head of the input: `"\r\n"` counts as a
single newline of width 2, any other newline character has width 1. -/
def newlineP : List Char → Option (List Char × Nat)
  | [] => none
  | c :: rest =>
    if c = '\r' then
      match rest with
      | c2 :: rest2 => if c2 = '\n' then some (rest2, 2) else some (rest, 1)
      | [] => some (rest, 1)
    else if isNewlineChar c then some (rest, 1) else none

/-- Characters allowed inside a segment run: anything except `'/'` and
newline characters. -/
def isSegChar (c : Char) : Bool :=
  !(c = '/') && !(isNewlineChar c)

/-- Unicode white space, as decided by Rust `char::is_whitespace`. -/
def isRustWhitespace (c : Char) : Bool :=
  c = ' ' || c = '\t' || c = '\n' || c = '\x0B' || c = '\x0C' || c = '\r' ||
  c = '\u0085' || c = '\u00A0' || c = '\u1680' ||
  (8192 ≤ c.toNat && c.toNat ≤ 8202) ||
  c = '\u2028' || c = '\u2029' || c = '\u202F' || c = '\u205F' || c = '\u3000'

/-- Rust `str::trim`: drop leading and trailing whitespace. -/
def rustTrim (l : List Char) : List Char :=
  ((l.dropWhile isRustWhitespace).reverse.dropWhile isRustWhitespace).reverse

/-- Segment parser: a run of at least one non-`'/'`, non-newline
character, collected and passed through `str::trim`; the span covers the
untrimmed run. -/
def segmentP (rem : List Char) (p : Nat) :
    Option (Token × List Char × Nat) :=
  let taken := rem.takeWhile isSegChar
  if taken.isEmpty then none
  else
    some (Token.segment p (p + taken.length) (String.mk (rustTrim taken)),
      rem.dropWhile isSegChar, p + taken.length)

/-- Repeated `(separator then segment)`, flattened in source order
(the `.then(segment).repeated()` part of the `path` rule). `fuel` bounds
the number of iterations; each iteration consumes at least two
characters, so `rem.length` is always enough fuel. -/
def parseSepSegs : Nat → List Char → Nat → List Token × List Char × Nat
  | 0, rem, p => ([], rem, p)
  | fuel + 1, rem, p =>
    match rem with
    | c :: rest =>
      if c = '/' then
        match segmentP rest (p + 1) with
        | some (seg, rest', p') =>
          let (more, rem', p'') := parseSepSegs fuel rest' p'
          (Token.separator p (p + 1) :: seg :: more, rem', p'')
        | none => ([], c :: rest, p)
      else ([], c :: rest, p)
    | [] => ([], [], p)

/-- Optional-segment stage of the path rule (`segment.or_not()`). -/
def segStage (rem1 : List Char) (p1 : Nat) :
    List Token × List Char × Nat :=
  match segmentP rem1 p1 with
  | some (t, r, q) => ([t], r, q)
  | none => (([] : List Token), rem1, p1)

/-- Optional trailing separator stage (`separator.or_not()`). -/
def sepStage (rem3 : List Char) (p3 : Nat) :
    List Token × List Char × Nat :=
  match rem3 with
  | c :: rest =>
    if c = '/' then ([Token.separator p3 (p3 + 1)], rest, p3 + 1)
    else (([] : List Token), c :: rest, p3)
  | [] => (([] : List Token), [], p3)

/-- Optional leading negate stage (`negate.or_not()`). -/
def negStage (rem : List Char) (p : Nat) :
    List Token × List Char × Nat :=
  match rem with
  | c :: rest =>
    if c = '!' then ([Token.negate p (p + 1)], rest, p + 1)
    else (([] : List Token), c :: rest, p)
  | [] => (([] : List Token), [], p)

/-- Tail of the path rule after the optional negate:
`segment? (separator segment)* separator?`. -/
def parsePathTail (rem1 : List Char) (p1 : Nat) :
    List Token × List Char × Nat :=
  let (seg, rem2, p2) := segStage rem1 p1
  let (mids, rem3, p3) := parseSepSegs rem2.length rem2 p2
  let (sep, rem4, p4) := sepStage rem3 p3
  (seg ++ mids ++ sep, rem4, p4)

/-- Path rule: `negate? segment? (separator segment)* separator?`,
children collected in source order. -/
def parsePath (rem : List Char) (p : Nat) : Token × List Char × Nat :=
  let (neg, rem1, p1) := negStage rem p
  let (ts, rem4, p4) := parsePathTail rem1 p1
  (Token.path p p4 (neg ++ ts), rem4, p4)

/-- Line element: a comment when the line starts with `'#'` (consuming to
the end of the line), otherwise a path. -/
def parseElement (rem : List Char) (p : Nat) : Token × List Char × Nat :=
  match rem with
  | c :: rest =>
    if c = '#' then
      let n := (rest.takeWhile (fun c => !(isNewlineChar c))).length
      (Token.comment p (p + 1 + n),
        rest.dropWhile (fun c => !(isNewlineChar c)), p + 1 + n)
    else parsePath (c :: rest) p
  | [] => parsePath [] p

/-- Recovery scan of `skip_then_retry_until`: skip one character, then
retry the newline parser, failing if end of input is reached first.
Returns the input after the recovered newline and the position there. -/
def skipToNl : List Char → Nat → Option (List Char × Nat)
  | [], _ => none
  | _ :: rest, p =>
    match newlineP rest with
    | some (rest', k) => some (rest', p + 1 + k)
    | none => skipToNl rest (p + 1)

/-- Main line loop of the `lines` rule: elements separated by newlines,
with `skip_then_retry_until` recovery on the newline separator. Each
iteration consumes at least one character, so `rem.length + 1` is always
enough fuel. Returns collected children, errors in source order, leftover
input and final position. -/
def parseLinesLoop : Nat → List Token → List ParseError → List Char → Nat →
    List Token × List ParseError × List Char × Nat
  | 0, acc, errs, rem, p => (acc, errs, rem, p)
  | fuel + 1, acc, errs, rem, p =>
    match newlineP rem with
    | some (rest, k) =>
      let (t, rest', p') := parseElement rest (p + k)
      parseLinesLoop fuel (acc ++ [t]) errs rest' p'
    | none =>
      match rem with
      | [] => (acc, errs, [], p)
      | c :: _ =>
        match skipToNl rem p with
        | some (rest, p') =>
          let e : ParseError :=
            ⟨p, p + 1, "found " ++ String.mk [c] ++ " expected newline"⟩
          let (t, rest', p'') := parseElement rest p'
          parseLinesLoop fuel (acc ++ [t]) (errs ++ [e]) rest' p''
        | none => (acc, errs, rem, p)

/-- Whole-file parse: first element, then the newline-separated loop.
Returns the `File` token, the recovered errors, the unconsumed input and
the final position. -/
def parseFile (input : List Char) :
    Token × List ParseError × List Char × Nat :=
  let (t, rem, p) := parseElement input 0
  let (ts, errs, rem', p') := parseLinesLoop (input.length + 1) [t] [] rem p
  (Token.file 0 p' ts, errs, rem', p')

/-- Rust `ParseTree::generate_from`: the tree is present when the whole
input is consumed; otherwise the parse fails and the trailing-input error
is appended. -/
def ParseTree.generate_from (input : String) :
    Option ParseTree × List ParseError :=
  let (t, errs, rem, p) := parseFile input.data
  if rem.isEmpty then (some ⟨t⟩, errs)
  else (none, errs ++ [⟨p, p + 1, "found unexpected input expected newline or end of input"⟩])

/-- Containment test used by `get_child_at_position`:
`start <= position && (start == end || end > position)`. -/
def Token.hit (t : Token) (pos : Nat) : Bool :=
  decide (t.start ≤ pos) && (t.start == t.stop || decide (pos < t.stop))

mutual

/-- Scan of the child list in `get_child_at_position`: the first child
whose span hits the position is entered; when no child hits, the node
itself (`self`) is the answer. -/
def Token.childSearch (self : Token) (pos : Nat) : List Token → Token
  | [] => self
  | c :: rest =>
    if c.hit pos then Token.enterChild c pos
    else Token.childSearch self pos rest

/-- Entering a hit child: `File`/`Path` children restart the search on
their own children, other children are returned as they are. -/
def Token.enterChild (c : Token) (pos : Nat) : Token :=
  match c with
  | .file s e cs => Token.childSearch (.file s e cs) pos cs
  | .path s e cs => Token.childSearch (.path s e cs) pos cs
  | c => c

end

/-- Rust `Token::get_child_at_position`: `none` on childless tokens,
otherwise the result of the child-list scan. -/
def Token.get_child_at_position (t : Token) (pos : Nat) : Option Token :=
  match t with
  | .file s e cs => some (Token.childSearch (.file s e cs) pos cs)
  | .path s e cs => some (Token.childSearch (.path s e cs) pos cs)
  | _ => none

mutual

/-- Rust `Token::get_first_child_filtered`: pre-order search for the
first descendant satisfying the filter. -/
def Token.get_first_child_filtered (t : Token) (f : Token → Bool) :
    Option Token :=
  match t with
  | .file _ _ cs => Token.firstInList f cs
  | .path _ _ cs => Token.firstInList f cs
  | _ => none

/-- Descent of `get_first_child_filtered` over a child list. -/
def Token.firstInList (f : Token → Bool) : List Token → Option Token
  | [] => none
  | c :: rest =>
    if f c then some c
    else
      match Token.get_first_child_filtered c f with
      | some x => some x
      | none => Token.firstInList f rest

end

/-- Completion item, restricted to the three string fields the engine
fills (label, detail, insert text). -/
structure CompletionItem where
  label : String
  detail : String
  insert_text : String
deriving Repr, DecidableEq

/-- Prefix accumulation of `generate_path_completions`: walk the Path's
children in order, stopping at the child equal to the current node;
segments contribute their value, separators a literal `'/'`, everything
else nothing. -/
def accumulate (cur : Token) : List Token → String
  | [] => ""
  | c :: rest =>
    if Token.beq c cur then ""
    else
      (match c with
        | .segment _ _ v => v
        | .separator _ _ => "/"
        | _ => "") ++ accumulate cur rest

/-- Rust `Completions::generate_path_completions`. -/
def Completions.generate_path_completions (tree : ParseTree)
    (position : Nat) : Option (List CompletionItem) :=
  match tree.root.get_first_child_filtered (fun t =>
      decide (t.start ≤ position) && decide (position ≤ t.stop) &&
        t.isPath) with
  | none => none
  | some line =>
    match line.get_children with
    | none => none
    | some children =>
      match line.get_child_at_position position with
      | none => none
      | some current =>
        let path := accumulate current children
        some [⟨path, path, path⟩]

/-- AST node (Rust `Node`): span-free, with separators and comments
already impossible by construction. -/
inductive Node where
  | file (children : List Node)
  | path (children : List Node)
  | segment (value : String)
  | negate

mutual

/-- Rust `AST::visit_token`: maps a parse-tree token to an AST node,
dropping separators, comments, empty segments and paths whose mapped
child list is empty. -/
def AST.visit_token : Token → Option Node
  | .file _ _ cs => some (.file (AST.visit_tokens cs))
  | .path _ _ cs =>
    let cs' := AST.visit_tokens cs
    if cs'.isEmpty then none else some (.path cs')
  | .segment _ _ v => if v.isEmpty then none else some (.segment v)
  | .negate _ _ => some .negate
  | .separator _ _ => none
  | .comment _ _ => none

/-- Rust `AST::visit_tokens`: children that map to `none` vanish. -/
def AST.visit_tokens : List Token → List Node
  | [] => []
  | t :: rest =>
    match AST.visit_token t with
    | some n => n :: AST.visit_tokens rest
    | none => AST.visit_tokens rest

end

/-- Rust `AST::generate_from` visits the root and unwraps; the embedding
keeps the `Option` so that the safety of the unwrap is a provable
statement rather than an assumption. -/
def AST.generate_from (t : ParseTree) : Option Node :=
  AST.visit_token t.root

/-- Modelled from the spec: the text-buffer file (Rust `File`, whose
source is not part of the reviewed tree): a document URI and its current
text. -/
structure File where
  url : String
  text : String
deriving Repr, DecidableEq

/-- Replacement range of a change event, in (line, UTF-16 column)
coordinates. -/
structure TextRange where
  startLine : Nat
  startCol : Nat
  endLine : Nat
  endCol : Nat
deriving Repr, DecidableEq

/-- Content-change event: an optional range plus the replacement text;
no range means full-document replacement. -/
structure ChangeEvent where
  range : Option TextRange
  text : String
deriving Repr, DecidableEq

/-- UTF-16 width of a character (1 or 2 code units). -/
def utf16Width (c : Char) : Nat :=
  if c.toNat < 65536 then 1 else 2

/-- Modelled from the spec: `offset_at` of the text buffer, turning a
(line, UTF-16 column) position into an offset, clamping at line ends. -/
def offset_at : List Char → Nat → Nat → Nat
  | [], _, _ => 0
  | c :: rest, line, col =>
    if line = 0 then
      if col = 0 then 0
      else if c = '\n' then 0
      else 1 + offset_at rest 0 (col - utf16Width c)
    else if c = '\n' then 1 + offset_at rest (line - 1) col
    else 1 + offset_at rest line col

/-- Modelled from the spec: `File::apply_change` (source not in the
reviewed tree): replace the ranged region, or the whole content when the
change carries no range. -/
def File.apply_change (f : File) (c : ChangeEvent) : File :=
  match c.range with
  | none => { f with text := c.text }
  | some r =>
    let chars := f.text.data
    let s := offset_at chars r.startLine r.startCol
    let e := offset_at chars r.endLine r.endCol
    { f with text := String.mk (chars.take s ++ c.text.data ++ chars.drop e) }

/-- Workspace document registry (Rust `Workspace`): the `DashMap` keyed
by URI string is modelled as a map from URI strings to open files. -/
def Workspace := String → Option File

/-- Empty workspace (Rust `Workspace::new`). -/
def Workspace.new : Workspace := fun _ => none

/-- Rust `Workspace::open`: inserts the file under its URI, replacing
any previous entry for that key. -/
def Workspace.open_doc (w : Workspace) (uri : String) (text : String) :
    Workspace :=
  fun k => if k = uri then some ⟨uri, text⟩ else w k

/-- Rust `Workspace::close`: removes the entry for the URI. -/
def Workspace.close_doc (w : Workspace) (uri : String) : Workspace :=
  fun k => if k = uri then none else w k

/-- Rust `Workspace::apply_changes`: an error when the URI is not open,
otherwise the changes are folded over the file in list order. -/
def Workspace.apply_changes (w : Workspace) (uri : String)
    (changes : List ChangeEvent) : Except String Workspace :=
  match w uri with
  | none => .error ("The file " ++ uri ++ " is not opened on the server.")
  | some f =>
    .ok (fun k =>
      if k = uri then some (changes.foldl File.apply_change f) else w k)

/-- Parse tree of an input, defaulting to an empty file when the parse
fails (used only to state concrete facts about successful parses). -/
def treeOf (s : String) : ParseTree :=
  ((ParseTree.generate_from s).1).getD ⟨.file 0 0 []⟩

/-- Containment as worded by the specification: a zero-width node
contains the offset only when the offset equals its span start, a node of
positive width contains the offsets of its half-open span. -/
def claimHit (t : Token) (pos : Nat) : Bool :=
  if t.start = t.stop then pos == t.start
  else decide (t.start ≤ pos) && decide (pos < t.stop)

/-- Containment as the code actually implements it: a zero-width node
contains every offset at or after its span start. -/
def amendHit (t : Token) (pos : Nat) : Bool :=
  if t.start = t.stop then decide (t.start ≤ pos)
  else decide (t.start ≤ pos) && decide (pos < t.stop)

mutual

/-- Descent over a child list under the specification's strict
containment rule, mirroring the structure of `childSearch`. -/
def claimSearch (self : Token) (pos : Nat) : List Token → Token
  | [] => self
  | c :: rest =>
    if claimHit c pos then claimEnter c pos
    else claimSearch self pos rest

/-- Entering a child under the strict containment rule. -/
def claimEnter (c : Token) (pos : Nat) : Token :=
  match c with
  | .file s e cs => claimSearch (.file s e cs) pos cs
  | .path s e cs => claimSearch (.path s e cs) pos cs
  | c => c

end

/-- Point query under the specification's strict containment rule. -/
def claimDescend (t : Token) (pos : Nat) : Option Token :=
  match t with
  | .file s e cs => some (claimSearch (.file s e cs) pos cs)
  | .path s e cs => some (claimSearch (.path s e cs) pos cs)
  | _ => none

mutual

/-- AST well-formedness: every path node has at least one child and no
segment value is empty. -/
def nodeOk : Node → Bool
  | .file cs => nodeOkL cs
  | .path cs => !cs.isEmpty && nodeOkL cs
  | .segment v => !v.isEmpty
  | .negate => true

/-- AST well-formedness of a node list, pointwise. -/
def nodeOkL : List Node → Bool
  | [] => true
  | n :: rest => nodeOk n && nodeOkL rest

end

/-- Separator and negate tokens are zero-width, as the specification
words it. -/
def zeroWidthSN : Token → Bool
  | .separator s e => s == e
  | .negate s e => s == e
  | _ => true

/-- Separator and negate tokens span exactly one character. -/
def sepNegOne : Token → Bool
  | .separator s e => e == s + 1
  | .negate s e => e == s + 1
  | _ => true

/-- Segment values are the trim of the source slice under the token's
span (the whole run, trimmed on both sides). -/
def segFromSource (input : List Char) : Token → Bool
  | .segment s e v => v == String.mk (rustTrim ((input.drop s).take (e - s)))
  | _ => true

mutual

/-- Predicate holding on a token and all of its descendants. -/
def allTok (f : Token → Bool) : Token → Bool
  | .file s e cs => f (.file s e cs) && allTokL f cs
  | .path s e cs => f (.path s e cs) && allTokL f cs
  | t => f t

/-- Predicate holding on all members of a token list and their
descendants. -/
def allTokL (f : Token → Bool) : List Token → Bool
  | [] => true
  | t :: ts => allTok f t && allTokL f ts

end

mutual

/-- Shift every span of a token by an offset. -/
def shiftTok (d : Nat) : Token → Token
  | .file s e cs => .file (s + d) (e + d) (shiftTokL d cs)
  | .path s e cs => .path (s + d) (e + d) (shiftTokL d cs)
  | .segment s e v => .segment (s + d) (e + d) v
  | .separator s e => .separator (s + d) (e + d)
  | .negate s e => .negate (s + d) (e + d)
  | .comment s e => .comment (s + d) (e + d)

/-- Shift every span in a token list by an offset. -/
def shiftTokL (d : Nat) : List Token → List Token
  | [] => []
  | t :: ts => shiftTok d t :: shiftTokL d ts

end

mutual

/-- Lines of an input, split at the newline tokens the parser itself
recognises (so `"\r\n"` is one terminator). A file always has one more
line than it has newline terminators. -/
def splitLines : List Char → List (List Char)
  | [] => [[]]
  | c :: rest =>
    if c = '\r' then [] :: splitAfterCR rest
    else if isNewlineChar c then [] :: splitLines rest
    else
      match splitLines rest with
      | l :: ls => (c :: l) :: ls
      | [] => [[c]]

/-- Continuation of `splitLines` right after a `'\r'`: an immediately
following `'\n'` belongs to the same terminator and is swallowed. -/
def splitAfterCR : List Char → List (List Char)
  | [] => [[]]
  | c :: rest =>
    if c = '\n' then splitLines rest
    else if c = '\r' then [] :: splitAfterCR rest
    else if isNewlineChar c then [] :: splitLines rest
    else
      match splitLines rest with
      | l :: ls => (c :: l) :: ls
      | [] => [[c]]

end

/-- Occurrence of an unescaped double separator, the one way a
non-comment line can fail to parse completely. -/
def hasDoubleSlash : List Char → Bool
  | [] => false
  | c :: rest =>
    (decide (c = '/') &&
      (match rest with
       | c2 :: _ => decide (c2 = '/')
       | [] => false)) ||
    hasDoubleSlash rest

/-- Well-formed line: a comment line, or a line with no double
separator. -/
def lineOkB : List Char → Bool
  | [] => true
  | c :: rest => if c = '#' then true else !hasDoubleSlash (c :: rest)

/-- Lines that survive AST derivation: non-comment lines containing at
least one character that is neither a separator nor whitespace. -/
def qualifiesB : List Char → Bool
  | [] => false
  | c :: rest =>
    if c = '#' then false
    else (c :: rest).any (fun x => !(x == '/') && !(isRustWhitespace x))

/-- Line contains no newline character. -/
def noNl (l : List Char) : Bool :=
  l.all (fun c => !(isNewlineChar c))

/-- Input position at which the line loop can run: either exhausted or
sitting on a newline terminator. -/
def atBoundary : List Char → Bool
  | [] => true
  | c :: _ => isNewlineChar c

/-- AST contribution of a single line: the line parsed as one element in
isolation, passed through AST derivation. -/
def astLine (l : List Char) : Option Node :=
  AST.visit_token (parseElement l 0).1

/-- Lines remaining for the loop: those after the leading newline
terminator, none when the input is exhausted. -/
def linesAfter (rem : List Char) : List (List Char) :=
  match newlineP rem with
  | some (rest, _) => splitLines rest
  | none => []

/-- Conjunction of the two per-token parser invariants, threaded through
one induction over the parser. -/
def goodTok (input : List Char) (t : Token) : Bool :=
  sepNegOne t && segFromSource input t

/-- C1: on input `"a/b/c"` the completion at offset 3 is the single
suggestion `"a/b"`, not `"a/"` as the specification's example asserts:
the node at offset 3 is the separator spanning `[3, 4)`, and the prefix
accumulated before it is `"a/b"`. -/
theorem c1_counterexample :
    Completions.generate_path_completions (treeOf "a/b/c") 3 =
      some [⟨"a/b", "a/b", "a/b"⟩] ∧
    Completions.generate_path_completions (treeOf "a/b/c") 3 ≠
      some [⟨"a/", "a/", "a/"⟩] :=
  ⟨rfl, by decide⟩

/-- C1 (amended): `generate_path_completions` on the tree of `"a/b/c"`
at offset 3 returns exactly one suggestion whose label, detail and
insert text are all `"a/b"`: the prefix accumulated from the enclosing
Path's children in source order, stopping just before the node located
at offset 3 (the separator spanning `[3, 4)`). -/
theorem c1_theorem :
    Completions.generate_path_completions (treeOf "a/b/c") 3 =
      some [⟨"a/b", "a/b", "a/b"⟩] := rfl

/-- C6: in the parse tree of `"a/b/c"` the separators span one full
character (for instance `[1, 2)`), so separator tokens are not
zero-width as claimed. -/
theorem c6_counterexample :
    (treeOf "a/b/c").root =
      .file 0 5 [.path 0 5 [.segment 0 1 "a", .separator 1 2,
        .segment 2 3 "b", .separator 3 4, .segment 4 5 "c"]] ∧
    allTok zeroWidthSN (treeOf "a/b/c").root = false ∧
    (ParseTree.generate_from "a/b/c").2 = [] :=
  ⟨rfl, rfl, rfl⟩

/-- C5: the segment of the line `"x\ "` (an escaped trailing space) is
stored as `"x\"`, the plain trim having removed the escaped space; the
segment of `" a"` is stored as `"a"`, the leading space not preserved.
Both contradict the claimed trailing-unescaped-only trimming. -/
theorem c5_counterexample :
    (treeOf "x\\ ").root = .file 0 3 [.path 0 3 [.segment 0 3 "x\\"]] ∧
    "x\\" ≠ "x\\ " ∧
    (treeOf " a").root = .file 0 2 [.path 0 2 [.segment 0 2 "a"]] ∧
    "a" ≠ " a" :=
  ⟨rfl, by decide, rfl, by decide⟩

/-- C4: on the tree of `"\na"`, a query at offset 1 returns the
zero-width empty Path spanning `[0, 0)` (the code treats a zero-width
child as containing every later offset), while the specification's
strict rule would descend to the segment spanning `[1, 2)`. -/
theorem c4_counterexample :
    (treeOf "\na").root.get_child_at_position 1 = some (.path 0 0 []) ∧
    claimDescend (treeOf "\na").root 1 = some (.segment 1 2 "a") ∧
    Token.path 0 0 [] ≠ Token.segment 1 2 "a" :=
  ⟨rfl, rfl, fun h => Token.noConfusion h⟩

/-- C3: the input `"#c"` has no malformed line and its single line is
non-blank, yet the derived AST contains zero Path nodes (the comment
line contributes nothing), so "exactly one Path per non-blank line"
fails. -/
theorem c3_counterexample :
    ParseTree.generate_from "#c" = (some (treeOf "#c"), []) ∧
    AST.generate_from (treeOf "#c") = some (Node.file []) ∧
    ((splitLines "#c".data).filter (fun l => !l.isEmpty)).length = 1 ∧
    ([] : List Node).length ≠
      ((splitLines "#c".data).filter (fun l => !l.isEmpty)).length :=
  ⟨rfl, rfl, rfl, by decide⟩

mutual

/-- AST nodes produced from any token are well-formed: paths are
non-empty and segment values are non-empty. -/
theorem visit_token_ok (t : Token) (n : Node)
    (h : AST.visit_token t = some n) : nodeOk n = true := by
  cases t with
  | file s e cs =>
    simp only [AST.visit_token, Option.some.injEq] at h
    subst h
    simpa [nodeOk] using visit_tokens_ok cs
  | path s e cs =>
    simp only [AST.visit_token] at h
    split at h
    · exact absurd h (by simp)
    · rename_i hne
      simp only [Option.some.injEq] at h
      subst h
      simp [nodeOk, hne, visit_tokens_ok cs]
  | segment s e v =>
    simp only [AST.visit_token] at h
    split at h
    · exact absurd h (by simp)
    · rename_i hne
      simp only [Option.some.injEq] at h
      subst h
      simp [nodeOk, hne]
  | negate s e =>
    simp only [AST.visit_token, Option.some.injEq] at h
    subst h
    rfl
  | separator s e => exact absurd h (by simp [AST.visit_token])
  | comment s e => exact absurd h (by simp [AST.visit_token])

/-- Lists of visited tokens are pointwise well-formed. -/
theorem visit_tokens_ok (ts : List Token) :
    nodeOkL (AST.visit_tokens ts) = true := by
  cases ts with
  | nil => rfl
  | cons t rest =>
    rw [AST.visit_tokens]
    cases h : AST.visit_token t with
    | none => exact visit_tokens_ok rest
    | some n => simp [nodeOkL, visit_token_ok t n h, visit_tokens_ok rest]

end

/-- C7: every AST node derived by `AST.generate_from` is well-formed
(every Path has at least one child, no Segment value is empty), and
separator tokens, comment tokens and childless Path tokens are dropped
entirely by `visit_token` rather than represented as empty nodes. -/
theorem c7_theorem :
    (∀ (tr : ParseTree) (n : Node),
      AST.generate_from tr = some n → nodeOk n = true) ∧
    (∀ s e, AST.visit_token (.separator s e) = none ∧
      AST.visit_token (.comment s e) = none ∧
      AST.visit_token (.path s e []) = none) :=
  ⟨fun tr n h => visit_token_ok tr.root n h, fun _ _ => ⟨rfl, rfl, rfl⟩⟩

/-- C7 witness: the theorem applied to a concrete one-path tree. -/
theorem c7_witness : nodeOk (Node.file [Node.path [Node.negate]]) = true :=
  c7_theorem.1 ⟨Token.file 0 1 [Token.path 0 1 [Token.negate 0 1]]⟩
    (Node.file [Node.path [Node.negate]]) rfl

/-- C9: whenever the parser returns a tree, its root is a `File` token
starting at offset 0, and AST derivation on it succeeds (the `unwrap`
inside `AST::generate_from` cannot fail). -/
theorem c9_theorem :
    ∀ (input : String) (tree : ParseTree) (errs : List ParseError),
    ParseTree.generate_from input = (some tree, errs) →
    (∃ e cs, tree.root = Token.file 0 e cs) ∧
    ∃ n, AST.generate_from tree = some n := by
  intro input tree errs h
  simp only [ParseTree.generate_from, parseFile] at h
  rcases hpe : parseElement input.data 0 with ⟨t, rem, p⟩
  simp only [hpe] at h
  rcases hl : parseLinesLoop (input.data.length + 1) [t] [] rem p with
    ⟨ts, errs2, rem2, p2⟩
  simp only [hl] at h
  split at h
  · simp only [Prod.mk.injEq, Option.some.injEq] at h
    obtain ⟨h1, _⟩ := h
    subst h1
    exact ⟨⟨p2, ts, rfl⟩, Node.file (AST.visit_tokens ts),
      by simp [AST.generate_from, AST.visit_token]⟩
  · simp at h

/-- C9 witness: the theorem applied to the concrete input `"a"`. -/
theorem c9_witness :
    (∃ e cs,
      (⟨Token.file 0 1 [Token.path 0 1 [Token.segment 0 1 "a"]]⟩ :
        ParseTree).root = Token.file 0 e cs) ∧
    ∃ n, AST.generate_from
      ⟨Token.file 0 1 [Token.path 0 1 [Token.segment 0 1 "a"]]⟩ = some n :=
  c9_theorem "a" ⟨Token.file 0 1 [Token.path 0 1 [Token.segment 0 1 "a"]]⟩
    [] rfl

/-- C8: `apply_changes` fails exactly when the URI is not open; when it
is open the changes are folded over the file buffer in list order, each
change seeing the state left by the previous one, the updated workspace
stores the folded file under the URI and every other URI is unchanged. -/
theorem c8_theorem :
    ∀ (w : Workspace) (uri : String) (changes : List ChangeEvent),
    (w uri = none →
      w.apply_changes uri changes =
        .error ("The file " ++ uri ++ " is not opened on the server.")) ∧
    (∀ f, w uri = some f →
      ∃ w', w.apply_changes uri changes = .ok w' ∧
        w' uri = some (changes.foldl File.apply_change f) ∧
        ∀ u, u ≠ uri → w' u = w u) := by
  intro w uri changes
  constructor
  · intro h
    simp [Workspace.apply_changes, h]
  · intro f h
    refine ⟨fun k =>
      if k = uri then some (changes.foldl File.apply_change f) else w k,
      ?_, ?_, ?_⟩
    · simp [Workspace.apply_changes, h]
    · simp
    · intro u hu
      simp [hu]

/-- C8 witness: the theorem applied to an unopened URI and to an opened
one with one full-replace change. -/
theorem c8_witness :
    (Workspace.new.apply_changes "file:///a" [] =
      .error ("The file " ++ "file:///a" ++ " is not opened on the server.")) ∧
    ∃ w', (Workspace.new.open_doc "file:///a" "abc").apply_changes
        "file:///a" [⟨none, "xyz"⟩] = .ok w' ∧
      w' "file:///a" =
        some ([(⟨none, "xyz"⟩ : ChangeEvent)].foldl File.apply_change
          ⟨"file:///a", "abc"⟩) ∧
      ∀ u, u ≠ "file:///a" →
        w' u = (Workspace.new.open_doc "file:///a" "abc") u :=
  ⟨(c8_theorem Workspace.new "file:///a" []).1 rfl,
    (c8_theorem (Workspace.new.open_doc "file:///a" "abc") "file:///a"
      [⟨none, "xyz"⟩]).2 ⟨"file:///a", "abc"⟩ (by simp [Workspace.open_doc])⟩

/-- C10: opening a URI that is already open replaces the stored file:
afterwards the workspace maps that URI to exactly the new text, and
every other URI is untouched (the map holds one entry per URI). -/
theorem c10_theorem :
    ∀ (w : Workspace) (uri text : String) (old : File),
    w uri = some old →
    (w.open_doc uri text) uri = some ⟨uri, text⟩ ∧
    ∀ u, u ≠ uri → (w.open_doc uri text) u = w u := by
  intro w uri text old h
  refine ⟨by simp [Workspace.open_doc], ?_⟩
  intro u hu
  simp [Workspace.open_doc, hu]

/-- C10 witness: re-opening `"file:///a"` replaces its buffer. -/
theorem c10_witness :
    ((Workspace.new.open_doc "file:///a" "one").open_doc "file:///a" "two")
      "file:///a" = some ⟨"file:///a", "two"⟩ ∧
    ∀ u, u ≠ "file:///a" →
      ((Workspace.new.open_doc "file:///a" "one").open_doc "file:///a" "two")
        u = (Workspace.new.open_doc "file:///a" "one") u :=
  c10_theorem (Workspace.new.open_doc "file:///a" "one") "file:///a" "two"
    ⟨"file:///a", "one"⟩ (by simp [Workspace.open_doc])

/-- Amended and implemented containment tests agree. -/
theorem amendHit_eq_hit (t : Token) (pos : Nat) : amendHit t pos = t.hit pos := by
  unfold amendHit Token.hit
  by_cases h : t.start = t.stop
  · simp [h]
  · rw [show (t.start == t.stop) = false by simpa using h]
    simp [h]

/-- Child scan returns the queried node when no child's span hits. -/
theorem childSearch_nohit (self : Token) (pos : Nat) (cs : List Token)
    (h : ∀ c ∈ cs, Token.hit c pos = false) :
    Token.childSearch self pos cs = self := by
  induction cs with
  | nil => rfl
  | cons c rest ih =>
    rw [Token.childSearch, h c (by simp)]
    simp only [Bool.false_eq_true, if_false]
    exact ih fun c' hc' => h c' (by simp [hc'])

/-- Child scan enters the first child in source order whose span hits. -/
theorem childSearch_first (self : Token) (pos : Nat) (l1 : List Token)
    (c : Token) (l2 : List Token)
    (h1 : ∀ c' ∈ l1, Token.hit c' pos = false) (hc : Token.hit c pos = true) :
    Token.childSearch self pos (l1 ++ c :: l2) = Token.enterChild c pos := by
  induction l1 with
  | nil =>
    rw [List.nil_append, Token.childSearch, hc]
    simp
  | cons a rest ih =>
    rw [List.cons_append, Token.childSearch, h1 a (by simp)]
    simp only [Bool.false_eq_true, if_false]
    exact ih fun c' hc' => h1 c' (by simp [hc'])

/-- Entering a child with children restarts the query on it; entering a
leaf returns the leaf. -/
theorem enterChild_spec (c : Token) (pos : Nat) :
    (c.get_children.isSome →
      some (Token.enterChild c pos) = c.get_child_at_position pos) ∧
    (c.get_children = none → Token.enterChild c pos = c) := by
  cases c <;>
    simp [Token.enterChild, Token.get_children, Token.get_child_at_position]

/-- C4 (amended): for every node with children and every offset,
`get_child_at_position` enters the first child in source order whose
span contains the offset — a zero-width child counting as containing
every offset at or after its span start, a positive-width child exactly
the offsets of its half-open span — recursing when that child itself has
children and returning it when it is a leaf; and when no child's span
contains the offset the queried node itself is returned. -/
theorem c4_theorem :
    ∀ (t : Token) (pos : Nat) (cs : List Token), t.get_children = some cs →
    ((∀ c ∈ cs, amendHit c pos = false) →
      t.get_child_at_position pos = some t) ∧
    (∀ l1 c l2, cs = l1 ++ c :: l2 →
      (∀ c' ∈ l1, amendHit c' pos = false) → amendHit c pos = true →
      (c.get_children.isSome →
        t.get_child_at_position pos = c.get_child_at_position pos) ∧
      (c.get_children = none →
        t.get_child_at_position pos = some c)) := by
  intro t pos cs hcs
  have key1 : ∀ (self : Token) (l : List Token),
      (∀ c ∈ l, amendHit c pos = false) →
      Token.childSearch self pos l = self := fun self l h =>
    childSearch_nohit self pos l fun c hc => by
      rw [← amendHit_eq_hit]; exact h c hc
  have key2 : ∀ (self : Token) (l1 : List Token) (c : Token) (l2 : List Token),
      (∀ c' ∈ l1, amendHit c' pos = false) → amendHit c pos = true →
      Token.childSearch self pos (l1 ++ c :: l2) = Token.enterChild c pos :=
    fun self l1 c l2 h1 hc =>
      childSearch_first self pos l1 c l2
        (fun c' hc' => by rw [← amendHit_eq_hit]; exact h1 c' hc')
        (by rw [← amendHit_eq_hit]; exact hc)
  cases t with
  | file s e cs0 =>
    simp only [Token.get_children, Option.some.injEq] at hcs
    subst hcs
    refine ⟨fun h => ?_, fun l1 c l2 hdec h1 hc => ?_⟩
    · simp only [Token.get_child_at_position]
      rw [key1 _ _ h]
    · subst hdec
      simp only [Token.get_child_at_position]
      rw [key2 _ l1 c l2 h1 hc]
      exact ⟨fun hs => (enterChild_spec c pos).1 hs,
        fun hn => by rw [(enterChild_spec c pos).2 hn]⟩
  | path s e cs0 =>
    simp only [Token.get_children, Option.some.injEq] at hcs
    subst hcs
    refine ⟨fun h => ?_, fun l1 c l2 hdec h1 hc => ?_⟩
    · simp only [Token.get_child_at_position]
      rw [key1 _ _ h]
    · subst hdec
      simp only [Token.get_child_at_position]
      rw [key2 _ l1 c l2 h1 hc]
      exact ⟨fun hs => (enterChild_spec c pos).1 hs,
        fun hn => by rw [(enterChild_spec c pos).2 hn]⟩
  | segment s e v => simp [Token.get_children] at hcs
  | separator s e => simp [Token.get_children] at hcs
  | negate s e => simp [Token.get_children] at hcs
  | comment s e => simp [Token.get_children] at hcs

/-- C4 witness: the theorem applied to the Path of `"a/b/c"` at offset
3, whose first hitting child is the separator spanning `[3, 4)`. -/
theorem c4_witness :
    (Token.path 0 5 [Token.segment 0 1 "a", Token.separator 1 2,
      Token.segment 2 3 "b", Token.separator 3 4,
      Token.segment 4 5 "c"]).get_child_at_position 3 =
      some (Token.separator 3 4) := by
  have h := (c4_theorem (Token.path 0 5 [Token.segment 0 1 "a",
    Token.separator 1 2, Token.segment 2 3 "b", Token.separator 3 4,
    Token.segment 4 5 "c"]) 3 _ rfl).2
    [Token.segment 0 1 "a", Token.separator 1 2, Token.segment 2 3 "b"]
    (Token.separator 3 4) [Token.segment 4 5 "c"] rfl (by decide) (by decide)
  exact h.2 rfl

/-- Dropping the satisfying prefix is dropping its length. -/
theorem dropWhile_eq_drop (p : Char → Bool) (l : List Char) :
    l.dropWhile p = l.drop (l.takeWhile p).length := by
  induction l with
  | nil => rfl
  | cons c rest ih =>
    by_cases h : p c <;> simp [List.takeWhile_cons, List.dropWhile_cons, h, ih]

/-- Taking the length of the satisfying prefix recovers it. -/
theorem takeWhile_take (p : Char → Bool) (l : List Char) :
    l.take (l.takeWhile p).length = l.takeWhile p :=
  (List.prefix_iff_eq_take.mp (List.takeWhile_prefix p)).symm

/-- Peeling one character off a drop. -/
theorem drop_tail (input : List Char) (a : Nat) (c : Char) (r : List Char)
    (h : input.drop a = c :: r) : input.drop (a + 1) = r := by
  have h1 : List.drop 1 (List.drop a input) = r := by rw [h]; rfl
  rw [← h1, List.drop_drop]

/-- Whole-tree predicates distribute over list append. -/
theorem allTokL_append (f : Token → Bool) (a b : List Token) :
    allTokL f (a ++ b) = (allTokL f a && allTokL f b) := by
  induction a with
  | nil => simp [allTokL]
  | cons t rest ih => simp [allTokL, ih, Bool.and_assoc]

mutual

/-- Whole-tree predicates are monotone under pointwise implication. -/
theorem allTok_imp (f g : Token → Bool)
    (hfg : ∀ t, f t = true → g t = true) :
    ∀ t, allTok f t = true → allTok g t = true := by
  intro t h
  cases t with
  | file s e cs =>
    rw [allTok] at h ⊢
    rw [Bool.and_eq_true] at h
    rw [Bool.and_eq_true]
    exact ⟨hfg _ h.1, allTokL_imp f g hfg cs h.2⟩
  | path s e cs =>
    rw [allTok] at h ⊢
    rw [Bool.and_eq_true] at h
    rw [Bool.and_eq_true]
    exact ⟨hfg _ h.1, allTokL_imp f g hfg cs h.2⟩
  | segment s e v => exact hfg _ h
  | separator s e => exact hfg _ h
  | negate s e => exact hfg _ h
  | comment s e => exact hfg _ h

/-- List version of `allTok_imp`. -/
theorem allTokL_imp (f g : Token → Bool)
    (hfg : ∀ t, f t = true → g t = true) :
    ∀ ts, allTokL f ts = true → allTokL g ts = true := by
  intro ts h
  cases ts with
  | nil => rfl
  | cons t rest =>
    rw [allTokL] at h ⊢
    rw [Bool.and_eq_true] at h
    rw [Bool.and_eq_true]
    exact ⟨allTok_imp f g hfg t h.1, allTokL_imp f g hfg rest h.2⟩

end

/-- Soundness of the segment parser: the produced token satisfies both
invariants (its value is the trim of its source slice), the remaining
input is the drop at the new position, and the position advances. -/
theorem segmentP_sound (input : List Char) (p : Nat) (t : Token)
    (r : List Char) (q : Nat)
    (h : segmentP (input.drop p) p = some (t, r, q)) :
    allTok (goodTok input) t = true ∧ r = input.drop q ∧ p ≤ q := by
  unfold segmentP at h
  by_cases he : ((input.drop p).takeWhile isSegChar).isEmpty
  · rw [if_pos he] at h
    exact absurd h (by simp)
  · rw [if_neg he] at h
    simp only [Option.some.injEq, Prod.mk.injEq] at h
    obtain ⟨ht, hr, hq⟩ := h
    subst ht
    subst hr
    subst hq
    refine ⟨?_, ?_, Nat.le_add_right p _⟩
    · have htake : (input.drop p).take
          ((input.drop p).takeWhile isSegChar).length
          = (input.drop p).takeWhile isSegChar := takeWhile_take _ _
      simp [allTok, goodTok, sepNegOne, segFromSource,
        Nat.add_sub_cancel_left, htake]
    · rw [dropWhile_eq_drop, List.drop_drop, Nat.add_comm]

/-- State coherence of the newline parser. -/
theorem newlineP_drop (input : List Char) (p : Nat) (r : List Char) (k : Nat)
    (h : newlineP (input.drop p) = some (r, k)) : r = input.drop (p + k) := by
  cases hd : input.drop p with
  | nil => rw [hd] at h; exact absurd h (by simp [newlineP])
  | cons c rest =>
    have hrest : rest = input.drop (p + 1) := (drop_tail input p c rest hd).symm
    rw [hd] at h
    rw [newlineP.eq_def] at h
    simp only [] at h
    by_cases hc : c = '\r'
    · rw [if_pos hc] at h
      cases rest with
      | nil =>
        simp only [Option.some.injEq, Prod.mk.injEq] at h
        obtain ⟨h1, h2⟩ := h
        subst h1
        subst h2
        exact hrest
      | cons c2 rest2 =>
        simp only [] at h
        by_cases hc2 : c2 = '\n'
        · rw [if_pos hc2] at h
          simp only [Option.some.injEq, Prod.mk.injEq] at h
          obtain ⟨h1, h2⟩ := h
          subst h1
          subst h2
          have := drop_tail input (p + 1) c2 rest2 hrest.symm
          simpa [Nat.add_assoc] using this.symm
        · rw [if_neg hc2] at h
          simp only [Option.some.injEq, Prod.mk.injEq] at h
          obtain ⟨h1, h2⟩ := h
          subst h1
          subst h2
          exact hrest
    · rw [if_neg hc] at h
      by_cases hn : isNewlineChar c
      · rw [hn] at h
        simp only [if_true, Option.some.injEq, Prod.mk.injEq] at h
        obtain ⟨h1, h2⟩ := h
        subst h1
        subst h2
        exact hrest
      · rw [Bool.not_eq_true] at hn
        rw [hn] at h
        simp at h

/-- State coherence of the recovery scan. -/
theorem skipToNl_drop (input : List Char) :
    ∀ (rem : List Char) (p : Nat) (r : List Char) (q : Nat),
    rem = input.drop p → skipToNl rem p = some (r, q) →
    r = input.drop q := by
  intro rem
  induction rem with
  | nil =>
    intro p r q hrem h
    simp [skipToNl] at h
  | cons c rest ih =>
    intro p r q hrem h
    rw [skipToNl] at h
    have hrest : rest = input.drop (p + 1) :=
      (drop_tail input p c rest hrem.symm).symm
    cases hnl : newlineP rest with
    | some v =>
      obtain ⟨r2, k⟩ := v
      rw [hnl] at h
      simp only [Option.some.injEq, Prod.mk.injEq] at h
      obtain ⟨h1, h2⟩ := h
      subst h1
      subst h2
      have := newlineP_drop input (p + 1) r2 k (by rw [← hrest]; exact hnl)
      simpa [Nat.add_assoc] using this
    | none =>
      rw [hnl] at h
      exact ih (p + 1) r q hrest h

/-- Soundness and state coherence of the repeated
`(separator segment)` parser, for any fuel. -/
theorem parseSepSegs_sound (input : List Char) :
    ∀ (fuel p : Nat) (ts : List Token) (r : List Char) (q : Nat),
    parseSepSegs fuel (input.drop p) p = (ts, r, q) →
    allTokL (goodTok input) ts = true ∧ r = input.drop q ∧ p ≤ q := by
  intro fuel
  induction fuel with
  | zero =>
    intro p ts r q h
    simp only [parseSepSegs, Prod.mk.injEq] at h
    obtain ⟨h1, h2, h3⟩ := h
    subst h1
    subst h2
    subst h3
    exact ⟨rfl, rfl, Nat.le_refl p⟩
  | succ fuel ih =>
    intro p ts r q h
    rw [parseSepSegs.eq_def] at h
    simp only [] at h
    cases hd : input.drop p with
    | nil =>
      rw [hd] at h
      simp only [Prod.mk.injEq] at h
      obtain ⟨h1, h2, h3⟩ := h
      subst h1
      subst h2
      subst h3
      exact ⟨rfl, hd.symm, Nat.le_refl p⟩
    | cons c rest =>
      rw [hd] at h
      simp only [] at h
      have hrest : rest = input.drop (p + 1) :=
        (drop_tail input p c rest hd).symm
      by_cases hc : c = '/'
      · rw [if_pos hc] at h
        cases hseg : segmentP rest (p + 1) with
        | none =>
          rw [hseg] at h
          simp only [] at h
          simp only [Prod.mk.injEq] at h
          obtain ⟨h1, h2, h3⟩ := h
          subst h1
          subst h2
          subst h3
          exact ⟨rfl, hd.symm, Nat.le_refl p⟩
        | some v =>
          obtain ⟨t1, r1, q1⟩ := v
          rw [hseg] at h
          simp only [] at h
          rcases hrec : parseSepSegs fuel r1 q1 with ⟨ts2, r2, q2⟩
          rw [hrec] at h
          obtain ⟨hg, hr1, hq1⟩ :=
            segmentP_sound input (p + 1) t1 r1 q1
              (by rw [← hrest]; exact hseg)
          obtain ⟨hg2, hr2, hq2⟩ :=
            ih q1 ts2 r2 q2 (by rw [← hr1]; exact hrec)
          simp only [Prod.mk.injEq] at h
          obtain ⟨hts, hr, hq⟩ := h
          subst hts
          subst hr
          subst hq
          refine ⟨?_, hr2, by omega⟩
          simp [allTokL, allTok, goodTok, sepNegOne, segFromSource, hg, hg2]
      · rw [if_neg hc] at h
        simp only [Prod.mk.injEq] at h
        obtain ⟨h1, h2, h3⟩ := h
        subst h1
        subst h2
        subst h3
        exact ⟨rfl, hd.symm, Nat.le_refl p⟩

/-- Soundness and state coherence of the optional-segment stage. -/
theorem segStage_sound (input : List Char) (p1 : Nat) (seg : List Token)
    (r : List Char) (q : Nat)
    (h : segStage (input.drop p1) p1 = (seg, r, q)) :
    allTokL (goodTok input) seg = true ∧ r = input.drop q ∧ p1 ≤ q := by
  unfold segStage at h
  cases hseg : segmentP (input.drop p1) p1 with
  | none =>
    rw [hseg] at h
    simp only [] at h
    simp only [Prod.mk.injEq] at h
    obtain ⟨h1, h2, h3⟩ := h
    subst h1
    subst h2
    subst h3
    exact ⟨rfl, rfl, Nat.le_refl p1⟩
  | some v =>
    obtain ⟨t1, r1, q1⟩ := v
    rw [hseg] at h
    simp only [] at h
    obtain ⟨hg1, hr1, hq1⟩ := segmentP_sound input p1 t1 r1 q1 hseg
    simp only [Prod.mk.injEq] at h
    obtain ⟨h1, h2, h3⟩ := h
    subst h1
    subst h2
    subst h3
    exact ⟨by simp [allTokL, hg1], hr1, hq1⟩

/-- Soundness and state coherence of the trailing-separator stage. -/
theorem sepStage_sound (input : List Char) (p3 : Nat) (sep : List Token)
    (r : List Char) (q : Nat)
    (h : sepStage (input.drop p3) p3 = (sep, r, q)) :
    allTokL (goodTok input) sep = true ∧ r = input.drop q ∧ p3 ≤ q := by
  unfold sepStage at h
  cases hd : input.drop p3 with
  | nil =>
    rw [hd] at h
    simp only [Prod.mk.injEq] at h
    obtain ⟨h1, h2, h3⟩ := h
    subst h1
    subst h2
    subst h3
    exact ⟨rfl, hd.symm, Nat.le_refl p3⟩
  | cons c rest =>
    rw [hd] at h
    simp only [] at h
    by_cases hc : c = '/'
    · rw [if_pos hc] at h
      simp only [Prod.mk.injEq] at h
      obtain ⟨h1, h2, h3⟩ := h
      subst h1
      subst h2
      subst h3
      refine ⟨?_, (drop_tail input p3 c rest hd).symm, Nat.le_add_right p3 1⟩
      simp [allTokL, allTok, goodTok, sepNegOne, segFromSource]
    · rw [if_neg hc] at h
      simp only [Prod.mk.injEq] at h
      obtain ⟨h1, h2, h3⟩ := h
      subst h1
      subst h2
      subst h3
      exact ⟨rfl, hd.symm, Nat.le_refl p3⟩

/-- Soundness and state coherence of the leading-negate stage. -/
theorem negStage_sound (input : List Char) (p : Nat) (neg : List Token)
    (r : List Char) (q : Nat)
    (h : negStage (input.drop p) p = (neg, r, q)) :
    allTokL (goodTok input) neg = true ∧ r = input.drop q ∧ p ≤ q := by
  unfold negStage at h
  cases hd : input.drop p with
  | nil =>
    rw [hd] at h
    simp only [Prod.mk.injEq] at h
    obtain ⟨h1, h2, h3⟩ := h
    subst h1
    subst h2
    subst h3
    exact ⟨rfl, hd.symm, Nat.le_refl p⟩
  | cons c rest =>
    rw [hd] at h
    simp only [] at h
    by_cases hc : c = '!'
    · rw [if_pos hc] at h
      simp only [Prod.mk.injEq] at h
      obtain ⟨h1, h2, h3⟩ := h
      subst h1
      subst h2
      subst h3
      refine ⟨?_, (drop_tail input p c rest hd).symm, Nat.le_add_right p 1⟩
      simp [allTokL, allTok, goodTok, sepNegOne, segFromSource]
    · rw [if_neg hc] at h
      simp only [Prod.mk.injEq] at h
      obtain ⟨h1, h2, h3⟩ := h
      subst h1
      subst h2
      subst h3
      exact ⟨rfl, hd.symm, Nat.le_refl p⟩

/-- Soundness and state coherence of the path tail. -/
theorem parsePathTail_sound (input : List Char) (p1 : Nat) (ts : List Token)
    (r : List Char) (q : Nat)
    (h : parsePathTail (input.drop p1) p1 = (ts, r, q)) :
    allTokL (goodTok input) ts = true ∧ r = input.drop q ∧ p1 ≤ q := by
  unfold parsePathTail at h
  rcases h1 : segStage (input.drop p1) p1 with ⟨seg, rem2, p2⟩
  rw [h1] at h
  simp only [] at h
  obtain ⟨hgseg, hrem2, hp2⟩ := segStage_sound input p1 seg rem2 p2 h1
  rcases h2 : parseSepSegs rem2.length rem2 p2 with ⟨mids, rem3, p3⟩
  rw [h2] at h
  simp only [] at h
  rw [hrem2] at h2
  obtain ⟨hgm, hrem3, hp3⟩ :=
    parseSepSegs_sound input (input.drop p2).length p2 mids rem3 p3 h2
  rcases h3 : sepStage rem3 p3 with ⟨sep, rem4, p4⟩
  rw [h3] at h
  simp only [Prod.mk.injEq] at h
  rw [hrem3] at h3
  obtain ⟨hgsep, hrem4, hp4⟩ := sepStage_sound input p3 sep rem4 p4 h3
  obtain ⟨ha, hb, hc⟩ := h
  subst ha
  subst hb
  subst hc
  refine ⟨?_, hrem4, by omega⟩
  simp only [allTokL_append, Bool.and_eq_true]
  exact ⟨⟨hgseg, hgm⟩, hgsep⟩

/-- Soundness and state coherence of the path rule. -/
theorem parsePath_sound (input : List Char) (p : Nat) (t : Token)
    (r : List Char) (q : Nat)
    (h : parsePath (input.drop p) p = (t, r, q)) :
    allTok (goodTok input) t = true ∧ r = input.drop q ∧ p ≤ q := by
  unfold parsePath at h
  rcases h1 : negStage (input.drop p) p with ⟨neg, rem1, p1⟩
  rw [h1] at h
  simp only [] at h
  obtain ⟨hgneg, hrem1, hp1⟩ := negStage_sound input p neg rem1 p1 h1
  rcases h2 : parsePathTail rem1 p1 with ⟨ts, rem4, p4⟩
  rw [h2] at h
  simp only [Prod.mk.injEq] at h
  rw [hrem1] at h2
  obtain ⟨hgts, hrem4, hp4⟩ := parsePathTail_sound input p1 ts rem4 p4 h2
  obtain ⟨ha, hb, hc⟩ := h
  subst ha
  subst hb
  subst hc
  refine ⟨?_, hrem4, by omega⟩
  rw [allTok, Bool.and_eq_true, allTokL_append, Bool.and_eq_true]
  exact ⟨by simp [goodTok, sepNegOne, segFromSource], hgneg, hgts⟩

/-- Soundness and state coherence of a line element. -/
theorem parseElement_sound (input : List Char) (p : Nat) (t : Token)
    (r : List Char) (q : Nat)
    (h : parseElement (input.drop p) p = (t, r, q)) :
    allTok (goodTok input) t = true ∧ r = input.drop q ∧ p ≤ q := by
  cases hd : input.drop p with
  | nil =>
    rw [hd] at h
    rw [parseElement] at h
    rw [← hd] at h
    exact parsePath_sound input p t r q h
  | cons c rest =>
    rw [hd] at h
    rw [parseElement] at h
    have hrest : rest = input.drop (p + 1) := (drop_tail input p c rest hd).symm
    by_cases hc : c = '#'
    · rw [if_pos hc] at h
      simp only [Prod.mk.injEq] at h
      obtain ⟨h1, h2, h3⟩ := h
      subst h1
      subst h2
      subst h3
      refine ⟨by simp [allTok, goodTok, sepNegOne, segFromSource], ?_,
        by omega⟩
      rw [dropWhile_eq_drop, hrest, List.drop_drop]
    · rw [if_neg hc] at h
      rw [← hd] at h
      exact parsePath_sound input p t r q h

/-- Soundness of the line loop: with a coherent state and sound
accumulator, all collected tokens satisfy the invariants. -/
theorem parseLinesLoop_sound (input : List Char) :
    ∀ (fuel : Nat) (acc : List Token) (errs : List ParseError) (p : Nat)
      (ts : List Token) (errs2 : List ParseError) (r : List Char) (q : Nat),
    parseLinesLoop fuel acc errs (input.drop p) p = (ts, errs2, r, q) →
    allTokL (goodTok input) acc = true →
    allTokL (goodTok input) ts = true := by
  intro fuel
  induction fuel with
  | zero =>
    intro acc errs p ts errs2 r q h hacc
    simp only [parseLinesLoop, Prod.mk.injEq] at h
    obtain ⟨h1, _, _, _⟩ := h
    subst h1
    exact hacc
  | succ fuel ih =>
    intro acc errs p ts errs2 r q h hacc
    rw [parseLinesLoop.eq_def] at h
    simp only [] at h
    cases hnl : newlineP (input.drop p) with
    | some v =>
      obtain ⟨rest, k⟩ := v
      rw [hnl] at h
      simp only [] at h
      have hrest : rest = input.drop (p + k) :=
        newlineP_drop input p rest k hnl
      rcases hpe : parseElement rest (p + k) with ⟨t, rest', p'⟩
      rw [hpe] at h
      simp only [] at h
      rw [hrest] at hpe
      obtain ⟨hgt, hrest', _⟩ :=
        parseElement_sound input (p + k) t rest' p' hpe
      rw [hrest'] at h
      exact ih (acc ++ [t]) errs p' ts errs2 r q h
        (by simp [allTokL_append, allTokL, hacc, hgt])
    | none =>
      rw [hnl] at h
      simp only [] at h
      cases hd : input.drop p with
      | nil =>
        rw [hd] at h
        simp only [Prod.mk.injEq] at h
        obtain ⟨h1, _, _, _⟩ := h
        subst h1
        exact hacc
      | cons c rest =>
        rw [hd] at h
        simp only [] at h
        cases hsk : skipToNl (c :: rest) p with
        | none =>
          rw [hsk] at h
          simp only [Prod.mk.injEq] at h
          obtain ⟨h1, _, _, _⟩ := h
          subst h1
          exact hacc
        | some v =>
          obtain ⟨rest2, p2⟩ := v
          rw [hsk] at h
          simp only [] at h
          have hrest2 : rest2 = input.drop p2 :=
            skipToNl_drop input (c :: rest) p rest2 p2 hd.symm hsk
          rcases hpe : parseElement rest2 p2 with ⟨t, rest', p'⟩
          rw [hpe] at h
          simp only [] at h
          rw [hrest2] at hpe
          obtain ⟨hgt, hrest', _⟩ :=
            parseElement_sound input p2 t rest' p' hpe
          rw [hrest'] at h
          exact ih (acc ++ [t])
            (errs ++ [⟨p, p + 1, "found " ++ String.mk [c] ++
              " expected newline"⟩]) p' ts errs2 r q h
            (by simp [allTokL_append, allTokL, hacc, hgt])

/-- Root-level soundness: every token of a returned tree satisfies both
per-token invariants. -/
theorem generate_from_good (input : String) (tree : ParseTree)
    (errs : List ParseError)
    (h : ParseTree.generate_from input = (some tree, errs)) :
    allTok (goodTok input.data) tree.root = true := by
  simp only [ParseTree.generate_from, parseFile] at h
  rcases hpe : parseElement input.data 0 with ⟨t, rem, p⟩
  simp only [hpe] at h
  rcases hl : parseLinesLoop (input.data.length + 1) [t] [] rem p with
    ⟨ts, errs2, rem2, p2⟩
  simp only [hl] at h
  split at h
  · simp only [Prod.mk.injEq, Option.some.injEq] at h
    obtain ⟨h1, _⟩ := h
    subst h1
    have hpe0 : parseElement (input.data.drop 0) 0 = (t, rem, p) := by
      simpa using hpe
    obtain ⟨hgt, hrem, _⟩ := parseElement_sound input.data 0 t rem p hpe0
    have hloop := parseLinesLoop_sound input.data (input.data.length + 1)
      [t] [] p ts errs2 rem2 p2 (by rw [← hrem]; exact hl)
      (by simp [allTokL, hgt])
    simp [allTok, goodTok, sepNegOne, segFromSource, hloop]
  · simp at h

/-- C6 (amended): in every parse tree returned by the parser, every
Separator and Negate token spans exactly one character: its half-open
span `[start, stop)` satisfies `stop = start + 1`, covering the `'/'` or
the leading `'!'` (rather than being zero-width). -/
theorem c6_theorem :
    ∀ (input : String) (tree : ParseTree) (errs : List ParseError),
    ParseTree.generate_from input = (some tree, errs) →
    allTok sepNegOne tree.root = true := by
  intro input tree errs h
  exact allTok_imp (goodTok input.data) sepNegOne
    (fun t ht => by rw [goodTok, Bool.and_eq_true] at ht; exact ht.1)
    tree.root (generate_from_good input tree errs h)

/-- C6 witness: the theorem applied to the parse of `"!a/b"`. -/
theorem c6_witness : allTok sepNegOne (treeOf "!a/b").root = true :=
  c6_theorem "!a/b" (treeOf "!a/b") [] rfl

/-- C5 (amended): in every parse tree returned by the parser, every
Segment token stores exactly the plain two-sided trim of its source run:
leading and trailing Unicode whitespace are both removed, and the trim is
escape-unaware, so whitespace preceded by a backslash is removed like any
other (inner backslash escapes pass through untouched). -/
theorem c5_theorem :
    ∀ (input : String) (tree : ParseTree) (errs : List ParseError),
    ParseTree.generate_from input = (some tree, errs) →
    allTok (segFromSource input.data) tree.root = true := by
  intro input tree errs h
  exact allTok_imp (goodTok input.data) (segFromSource input.data)
    (fun t ht => by rw [goodTok, Bool.and_eq_true] at ht; exact ht.2)
    tree.root (generate_from_good input tree errs h)

/-- C5 witness: the theorem applied to the parse of `"a/b\ c  "`, whose
last segment keeps the inner escaped space and loses the trailing run. -/
theorem c5_witness :
    allTok (segFromSource "a/b\\ c  ".data) (treeOf "a/b\\ c  ").root =
      true :=
  c5_theorem "a/b\\ c  " (treeOf "a/b\\ c  ") [] rfl

/-- Scanning an appended list stops inside the first part when the head
of the second part fails the predicate. -/
theorem takeWhile_append_not (p : Char → Bool) (a b : List Char)
    (hb : ∀ c r, b = c :: r → p c = false) :
    (a ++ b).takeWhile p = a.takeWhile p ∧
    (a ++ b).dropWhile p = a.dropWhile p ++ b := by
  induction a with
  | nil =>
    cases b with
    | nil => exact ⟨rfl, rfl⟩
    | cons c r =>
      simp [List.takeWhile_cons, List.dropWhile_cons, hb c r rfl]
  | cons x a' ih =>
    by_cases hx : p x <;>
      simp [List.takeWhile_cons, List.dropWhile_cons, hx, ih]

/-- The head of a `dropWhile` remainder fails the predicate. -/
theorem dropWhile_head_not (p : Char → Bool) (l : List Char) (c : Char)
    (r : List Char) (h : l.dropWhile p = c :: r) : p c = false := by
  induction l with
  | nil => simp at h
  | cons x l' ih =>
    by_cases hx : p x
    · rw [List.dropWhile_cons, if_pos hx] at h
      exact ih h
    · rw [List.dropWhile_cons, if_neg hx] at h
      obtain ⟨h1, _⟩ := List.cons.injEq .. ▸ h
      subst h1
      simpa using hx

/-- An empty `takeWhile` means the head already fails the predicate. -/
theorem takeWhile_nil_head (p : Char → Bool) (l : List Char) (c : Char)
    (r : List Char) (hl : l = c :: r) (h : l.takeWhile p = []) :
    p c = false := by
  subst hl
  rw [List.takeWhile_cons] at h
  by_cases hc : p c
  · rw [if_pos hc] at h
    exact absurd h (by simp)
  · simpa using hc

/-- The segment parser consumes at least one character. -/
theorem segmentP_lt (rem : List Char) (p : Nat) (t : Token) (r : List Char)
    (q : Nat) (h : segmentP rem p = some (t, r, q)) : r.length < rem.length := by
  unfold segmentP at h
  by_cases he : (rem.takeWhile isSegChar).isEmpty
  · rw [if_pos he] at h
    exact absurd h (by simp)
  · rw [if_neg he] at h
    simp only [Option.some.injEq, Prod.mk.injEq] at h
    obtain ⟨_, hr, _⟩ := h
    subst hr
    rw [dropWhile_eq_drop, List.length_drop]
    have hne : (rem.takeWhile isSegChar).length ≠ 0 := by
      intro hz
      exact he (by simpa [List.isEmpty_iff, List.length_eq_zero] using hz)
    have hle : (rem.takeWhile isSegChar).length ≤ rem.length :=
      List.IsPrefix.length_le (List.takeWhile_prefix _)
    omega

/-- With enough fuel the result of `parseSepSegs` does not depend on the
exact fuel. -/
theorem parseSepSegs_fuel :
    ∀ (f1 f2 : Nat) (rem : List Char) (p : Nat),
    rem.length ≤ f1 → rem.length ≤ f2 →
    parseSepSegs f1 rem p = parseSepSegs f2 rem p := by
  intro f1
  induction f1 with
  | zero =>
    intro f2 rem p h1 h2
    have : rem = [] := by
      cases rem with
      | nil => rfl
      | cons c r => simp at h1
    subst this
    cases f2 with
    | zero => rfl
    | succ f2 => rfl
  | succ f1 ih =>
    intro f2 rem p h1 h2
    cases f2 with
    | zero =>
      have : rem = [] := by
        cases rem with
        | nil => rfl
        | cons c r => simp at h2
      subst this
      rfl
    | succ f2 =>
      rw [parseSepSegs.eq_def]
      conv_rhs => rw [parseSepSegs.eq_def]
      cases rem with
      | nil => rfl
      | cons c rest =>
        simp only []
        by_cases hc : c = '/'
        · rw [if_pos hc, if_pos hc]
          cases hseg : segmentP rest (p + 1) with
          | none => rfl
          | some v =>
            obtain ⟨t1, r1, q1⟩ := v
            have hlt := segmentP_lt rest (p + 1) t1 r1 q1 hseg
            have hrec : parseSepSegs f1 r1 q1 = parseSepSegs f2 r1 q1 := by
              apply ih
              · simp at h1; omega
              · simp at h2; omega
            simp only []
            rw [hrec]
        · rw [if_neg hc, if_neg hc]

/-- Lines without newline characters keep that property on suffixes. -/
theorem noNl_suffix (l s : List Char) (h : noNl l = true) (hs : s <:+ l) :
    noNl s = true := by
  rw [noNl, List.all_eq_true] at h ⊢
  exact fun c hc => h c (hs.sublist.subset hc)

/-- A double slash in a suffix is a double slash in the whole list. -/
theorem dslash_suffix (l s : List Char) (hs : s <:+ l)
    (h : hasDoubleSlash s = true) : hasDoubleSlash l = true := by
  obtain ⟨pre, rfl⟩ := hs
  induction pre with
  | nil => exact h
  | cons c pre' ih =>
    rw [List.cons_append, hasDoubleSlash.eq_def]
    simp only []
    rw [ih]
    simp

/-- On input sitting at a boundary the repeated separator-segment parser
consumes nothing. -/
theorem parseSepSegs_boundary (f : Nat) (r : List Char) (p : Nat)
    (hb : ∀ c rest, r = c :: rest → isSegChar c = false →
      ¬ c = '/' → True)
    (hb2 : ∀ c rest, r = c :: rest → ¬ c = '/') :
    parseSepSegs f r p = ([], r, p) := by
  cases f with
  | zero => rfl
  | succ f =>
    rw [parseSepSegs.eq_def]
    cases r with
    | nil => rfl
    | cons c rest =>
      simp only []
      rw [if_neg (hb2 c rest rfl)]

/-- Core of full consumption: starting from a non-segment head with no
double slash and no newline, the separator-segment loop followed by the
optional trailing separator consumes the entire input. -/
theorem sepSegsSep_consume :
    ∀ (n : Nat) (l2 : List Char) (p2 : Nat), l2.length ≤ n →
    noNl l2 = true →
    (∀ c r, l2 = c :: r → isSegChar c = false) →
    hasDoubleSlash l2 = false →
    (let (_, rem3, p3) := parseSepSegs l2.length l2 p2
     (sepStage rem3 p3).2.1) = [] := by
  intro n
  induction n with
  | zero =>
    intro l2 p2 hn _ _ _
    have : l2 = [] := by
      cases l2 with
      | nil => rfl
      | cons c r => simp at hn
    subst this
    rfl
  | succ n ih =>
    intro l2 p2 hn hnl hhead hds
    cases l2 with
    | nil => rfl
    | cons c rest =>
      have hcslash : c = '/' := by
        have h1 := hhead c rest rfl
        rw [isSegChar] at h1
        rcases Bool.and_eq_false_iff.mp h1 with h2 | h2
        · simpa using h2
        · exfalso
          rw [noNl, List.all_eq_true] at hnl
          have := hnl c (by simp)
          simp only [Bool.not_eq_true'] at this
          rw [this] at h2
          simp at h2
      subst hcslash
      rw [parseSepSegs.eq_def]
      simp only [List.length_cons, if_true]
      cases hseg : segmentP rest (p2 + 1) with
      | none =>
        -- remaining input is '/' :: rest with rest not starting a segment
        cases hr : rest with
        | nil => rfl
        | cons c2 r2 =>
          subst hr
          unfold segmentP at hseg
          by_cases he : ((c2 :: r2).takeWhile isSegChar).isEmpty
          · have hc2 : isSegChar c2 = false := by
              apply takeWhile_nil_head isSegChar (c2 :: r2) c2 r2 rfl
              simpa [List.isEmpty_iff] using he
            rw [isSegChar] at hc2
            rcases Bool.and_eq_false_iff.mp hc2 with h2 | h2
            · -- c2 = '/': double slash, contradiction
              exfalso
              rw [hasDoubleSlash.eq_def] at hds
              simp only [] at hds
              simp only [Bool.or_eq_false_iff] at hds
              obtain ⟨hds1, _⟩ := hds
              rw [Bool.and_eq_false_iff] at hds1
              rcases hds1 with h3 | h3
              · simp at h3
              · have hcc : c2 = '/' := by simpa using h2
                rw [hcc] at h3
                simp at h3
            · -- c2 is a newline: contradiction with noNl
              exfalso
              rw [noNl, List.all_eq_true] at hnl
              have := hnl c2 (by simp)
              simp only [Bool.not_eq_true'] at this
              rw [this] at h2
              simp at h2
          · rw [if_neg he] at hseg
            simp at hseg
      | some v =>
        obtain ⟨t1, r1, q1⟩ := v
        simp only [] 
        have hlt := segmentP_lt rest (p2 + 1) t1 r1 q1 hseg
        have hr1 : r1 = rest.dropWhile isSegChar := by
          unfold segmentP at hseg
          by_cases he : (rest.takeWhile isSegChar).isEmpty
          · rw [if_pos he] at hseg; simp at hseg
          · rw [if_neg he] at hseg
            simp only [Option.some.injEq, Prod.mk.injEq] at hseg
            exact hseg.2.1.symm
        have hsuffix : r1 <:+ ('/' :: rest) := by
          rw [hr1]
          exact (List.dropWhile_suffix isSegChar).trans (List.suffix_cons '/' rest)
        have hnl1 : noNl r1 = true := noNl_suffix _ _ hnl hsuffix
        have hhead1 : ∀ c r, r1 = c :: r → isSegChar c = false := by
          intro c r hcr
          exact dropWhile_head_not isSegChar rest c r (hr1 ▸ hcr)
        have hds1 : hasDoubleSlash r1 = false := by
          cases hx : hasDoubleSlash r1 with
          | false => rfl
          | true => rw [dslash_suffix _ _ hsuffix hx] at hds; exact hds
        have hn2 : rest.length ≤ n := by simp at hn; omega
        have hfin := ih r1 q1 (by omega) hnl1 hhead1 hds1
        rcases hrec : parseSepSegs r1.length r1 q1 with ⟨mids, rem3, p3⟩
        have hfuel : parseSepSegs rest.length r1 q1 =
            parseSepSegs r1.length r1 q1 :=
          parseSepSegs_fuel rest.length r1.length r1 q1 (by omega)
            (Nat.le_refl _)
        rw [hfuel, hrec]
        rw [hrec] at hfin
        simp only [] at hfin ⊢
        exact hfin

/-- Full consumption of a well-formed line by the path tail. -/
theorem parsePathTail_consume (l : List Char) (p1 : Nat)
    (hnl : noNl l = true) (hds : hasDoubleSlash l = false) :
    (parsePathTail l p1).2.1 = [] := by
  unfold parsePathTail
  rcases h1 : segStage l p1 with ⟨seg, rem2, p2⟩
  simp only []
  have hprops : rem2 <:+ l ∧ (∀ c r, rem2 = c :: r → isSegChar c = false) := by
    unfold segStage at h1
    cases hseg : segmentP l p1 with
    | none =>
      rw [hseg] at h1
      simp only [Prod.mk.injEq] at h1
      obtain ⟨_, h2, _⟩ := h1
      subst h2
      refine ⟨List.suffix_refl l, ?_⟩
      intro c r hcr
      unfold segmentP at hseg
      by_cases he : (l.takeWhile isSegChar).isEmpty
      · exact takeWhile_nil_head isSegChar l c r hcr
          (by simpa [List.isEmpty_iff] using he)
      · rw [if_neg he] at hseg; simp at hseg
    | some v =>
      obtain ⟨t1, r1, q1⟩ := v
      rw [hseg] at h1
      simp only [Prod.mk.injEq] at h1
      obtain ⟨_, h2, _⟩ := h1
      subst h2
      have hr1 : r1 = l.dropWhile isSegChar := by
        unfold segmentP at hseg
        by_cases he : (l.takeWhile isSegChar).isEmpty
        · rw [if_pos he] at hseg; simp at hseg
        · rw [if_neg he] at hseg
          simp only [Option.some.injEq, Prod.mk.injEq] at hseg
          exact hseg.2.1.symm
      subst hr1
      exact ⟨List.dropWhile_suffix isSegChar,
        fun c r hcr => dropWhile_head_not isSegChar l c r hcr⟩
  obtain ⟨hsuf, hhead⟩ := hprops
  have hnl2 : noNl rem2 = true := noNl_suffix _ _ hnl hsuf
  have hds2 : hasDoubleSlash rem2 = false := by
    cases hx : hasDoubleSlash rem2 with
    | false => rfl
    | true => rw [dslash_suffix _ _ hsuf hx] at hds; exact hds
  have := sepSegsSep_consume rem2.length rem2 p2 (Nat.le_refl _) hnl2
    hhead hds2
  rcases hrec : parseSepSegs rem2.length rem2 p2 with ⟨mids, rem3, p3⟩
  rw [hrec] at this
  simp only [] at this ⊢
  rcases h3 : sepStage rem3 p3 with ⟨sep, rem4, p4⟩
  rw [h3] at this
  exact this

/-- Full consumption of a well-formed line by a line element. -/
theorem parseElement_consume (l : List Char) (p : Nat)
    (hnl : noNl l = true) (hok : lineOkB l = true) :
    (parseElement l p).2.1 = [] := by
  cases l with
  | nil =>
    rw [parseElement]
    unfold parsePath
    rcases h1 : negStage [] p with ⟨neg, rem1, p1⟩
    have : rem1 = [] := by
      unfold negStage at h1
      simp only [Prod.mk.injEq] at h1
      exact h1.2.1.symm
    subst this
    simp only []
    have := parsePathTail_consume [] p1 rfl rfl
    rcases h2 : parsePathTail [] p1 with ⟨ts, rem4, p4⟩
    rw [h2] at this
    exact this
  | cons c rest =>
    rw [parseElement]
    by_cases hc : c = '#'
    · rw [if_pos hc]
      simp only []
      rw [List.dropWhile_eq_nil_iff]
      intro x hx
      rw [noNl, List.all_eq_true] at hnl
      exact hnl x (by simp [hx])
    · rw [if_neg hc]
      have hds : hasDoubleSlash (c :: rest) = false := by
        rw [lineOkB] at hok
        rw [if_neg hc] at hok
        simpa using hok
      unfold parsePath
      rcases h1 : negStage (c :: rest) p with ⟨neg, rem1, p1⟩
      have hrem1 : rem1 = c :: rest ∨ rem1 = rest := by
        unfold negStage at h1
        simp only [] at h1
        by_cases hneg : c = '!'
        · rw [if_pos hneg] at h1
          simp only [Prod.mk.injEq] at h1
          exact Or.inr h1.2.1.symm
        · rw [if_neg hneg] at h1
          simp only [Prod.mk.injEq] at h1
          exact Or.inl h1.2.1.symm
      have hnl1 : noNl rem1 = true := by
        rcases hrem1 with h | h
        · rw [h]; exact hnl
        · rw [h]
          exact noNl_suffix _ _ hnl (List.suffix_cons c rest)
      have hds1 : hasDoubleSlash rem1 = false := by
        rcases hrem1 with h | h
        · rw [h]; exact hds
        · rw [h]
          cases hx : hasDoubleSlash rest with
          | false => rfl
          | true =>
            rw [dslash_suffix (c :: rest) rest (List.suffix_cons c rest) hx]
              at hds
            exact hds
      simp only []
      have := parsePathTail_consume rem1 p1 hnl1 hds1
      rcases h2 : parsePathTail rem1 p1 with ⟨ts, rem4, p4⟩
      rw [h2] at this
      exact this

/-- The path rule always produces a Path token. -/
theorem parsePath_isPath (rem : List Char) (p : Nat) :
    (parsePath rem p).1.isPath = true := by
  unfold parsePath
  rcases negStage rem p with ⟨neg, rem1, p1⟩
  simp only []
  rcases parsePathTail rem1 p1 with ⟨ts, rem4, p4⟩
  rfl

/-- C2: recovery after a malformed line. For every well-formed line `t`,
parsing `"a//b/c\n" ++ t` yields a tree: the malformed first line
contributes the Path parsed up to the failure point, exactly one
structured error is recorded (span `[2, 3)` at the offending second
separator, with a message), the parser resynchronises at the newline, and
the second line's element — a Path token whenever the line is not a
comment — appears in the tree. When several lines are malformed (here
`"a//b\nc//d\ne"`), all their errors are collected in source order. -/
theorem c2_theorem :
    (∀ t : String, noNl t.data = true → lineOkB t.data = true →
      ∃ tokT pT,
        parseElement t.data 7 = (tokT, [], pT) ∧
        ParseTree.generate_from ("a//b/c\n" ++ t) =
          (some ⟨Token.file 0 pT
            [Token.path 0 2 [Token.segment 0 1 "a", Token.separator 1 2],
             tokT]⟩,
           [⟨2, 3, "found / expected newline"⟩]) ∧
        (t.data.head? ≠ some '#' → tokT.isPath = true)) ∧
    ParseTree.generate_from "a//b\nc//d\ne" =
      (some ⟨Token.file 0 11
        [Token.path 0 2 [Token.segment 0 1 "a", Token.separator 1 2],
         Token.path 5 7 [Token.segment 5 6 "c", Token.separator 6 7],
         Token.path 10 11 [Token.segment 10 11 "e"]]⟩,
       [⟨2, 3, "found / expected newline"⟩,
        ⟨7, 8, "found / expected newline"⟩]) := by
  constructor
  · intro t hnl hok
    rcases hpe : parseElement t.data 7 with ⟨tokT, remT, pT⟩
    have hcons := parseElement_consume t.data 7 hnl hok
    rw [hpe] at hcons
    have hremT : remT = [] := hcons
    subst hremT
    refine ⟨tokT, pT, rfl, ?_, ?_⟩
    · have hd : ("a//b/c\n" ++ t).data =
          'a' :: '/' :: '/' :: 'b' :: '/' :: 'c' :: '\n' :: t.data := by
        rw [String.data_append]
        rfl
      have key : parseFile
          ('a' :: '/' :: '/' :: 'b' :: '/' :: 'c' :: '\n' :: t.data) =
          (Token.file 0 pT
            [Token.path 0 2 [Token.segment 0 1 "a", Token.separator 1 2],
             tokT],
           [⟨2, 3, "found / expected newline"⟩], [], pT) := by
        rw [parseFile]
        rw [show parseElement
            ('a' :: '/' :: '/' :: 'b' :: '/' :: 'c' :: '\n' :: t.data) 0 =
            (Token.path 0 2 [Token.segment 0 1 "a", Token.separator 1 2],
             '/' :: 'b' :: '/' :: 'c' :: '\n' :: t.data, 2) from rfl]
        try simp only []
        rw [parseLinesLoop.eq_def]
        try simp only [List.length_cons]
        try simp only []
        rw [show newlineP ('/' :: 'b' :: '/' :: 'c' :: '\n' :: t.data) =
          none from rfl]
        try simp only []
        rw [show skipToNl ('/' :: 'b' :: '/' :: 'c' :: '\n' :: t.data) 2 =
          some (t.data, 7) from rfl]
        try simp only []
        rw [hpe]
        try simp only []
        try rw [parseLinesLoop.eq_def]
        try simp only [List.length_cons]
        try simp only []
        rfl
      rw [ParseTree.generate_from]
      rw [hd, key]
      rfl
    · intro hhash
      cases ht : t.data with
      | nil =>
        rw [ht] at hpe
        have : tokT = Token.path 7 7 [] := by
          have h0 : parseElement [] 7 = (Token.path 7 7 [], [], 7) := rfl
          rw [h0] at hpe
          simp only [Prod.mk.injEq] at hpe
          exact hpe.1.symm
        rw [this]
        rfl
      | cons c rest =>
        rw [ht] at hhash hpe
        have hc : ¬ c = '#' := by
          intro h
          subst h
          simp at hhash
        rw [parseElement] at hpe
        rw [if_neg hc] at hpe
        have := parsePath_isPath (c :: rest) 7
        rw [hpe] at this
        exact this
  · rfl

/-- C2 witness: the theorem applied to the concrete later line `"x/y"`. -/
theorem c2_witness :
    ∃ tokT pT,
      parseElement "x/y".data 7 = (tokT, [], pT) ∧
      ParseTree.generate_from ("a//b/c\n" ++ "x/y") =
        (some ⟨Token.file 0 pT
          [Token.path 0 2 [Token.segment 0 1 "a", Token.separator 1 2],
           tokT]⟩,
         [⟨2, 3, "found / expected newline"⟩]) ∧
      ("x/y".data.head? ≠ some '#' → tokT.isPath = true) :=
  c2_theorem.1 "x/y" rfl rfl

/-- Shifting distributes over token-list append. -/
theorem shiftTokL_append (d : Nat) (a b : List Token) :
    shiftTokL d (a ++ b) = shiftTokL d a ++ shiftTokL d b := by
  induction a with
  | nil => rfl
  | cons t rest ih => simp [shiftTokL, ih]

/-- The segment parser at a shifted position produces shifted spans. -/
theorem segmentP_shift (rem : List Char) (p d : Nat) :
    segmentP rem (p + d) =
      (segmentP rem p).map (fun x => (shiftTok d x.1, x.2.1, x.2.2 + d)) := by
  unfold segmentP
  by_cases he : (rem.takeWhile isSegChar).isEmpty
  · rw [if_pos he, if_pos he]
    rfl
  · rw [if_neg he, if_neg he]
    simp [shiftTok, Token.segment.injEq]
    all_goals omega

/-- The separator-segment loop at a shifted position produces shifted
spans. -/
theorem parseSepSegs_shift :
    ∀ (fuel : Nat) (rem : List Char) (p d : Nat),
    parseSepSegs fuel rem (p + d) =
      (shiftTokL d (parseSepSegs fuel rem p).1,
       (parseSepSegs fuel rem p).2.1,
       (parseSepSegs fuel rem p).2.2 + d) := by
  intro fuel
  induction fuel with
  | zero => intro rem p d; simp [parseSepSegs, shiftTokL]
  | succ fuel ih =>
    intro rem p d
    rw [parseSepSegs.eq_def]
    conv_rhs => rw [parseSepSegs.eq_def]
    cases rem with
    | nil => simp [shiftTokL]
    | cons c rest =>
      simp only []
      by_cases hc : c = '/'
      · rw [if_pos hc, if_pos hc]
        have harith : p + d + 1 = p + 1 + d := by omega
        rw [harith, segmentP_shift rest (p + 1) d]
        cases hv : segmentP rest (p + 1) with
        | none => simp [shiftTokL]
        | some v =>
          obtain ⟨t1, r1, q1⟩ := v
          simp only [Option.map_some']
          rcases hrec : parseSepSegs fuel r1 q1 with ⟨more, rem2, p2⟩
          rw [ih r1 q1 d, hrec]
          simp [shiftTokL, shiftTok, Token.separator.injEq]
      · rw [if_neg hc, if_neg hc]
        simp [shiftTokL]

/-- Stage shifts: the optional segment. -/
theorem segStage_shift (rem : List Char) (p d : Nat) :
    segStage rem (p + d) =
      (shiftTokL d (segStage rem p).1, (segStage rem p).2.1,
       (segStage rem p).2.2 + d) := by
  unfold segStage
  rw [segmentP_shift]
  cases hv : segmentP rem p with
  | none => simp [shiftTokL]
  | some v =>
    obtain ⟨t1, r1, q1⟩ := v
    simp [shiftTokL]

/-- Stage shifts: the trailing separator. -/
theorem sepStage_shift (rem : List Char) (p d : Nat) :
    sepStage rem (p + d) =
      (shiftTokL d (sepStage rem p).1, (sepStage rem p).2.1,
       (sepStage rem p).2.2 + d) := by
  unfold sepStage
  cases rem with
  | nil => simp [shiftTokL]
  | cons c rest =>
    simp only []
    by_cases hc : c = '/'
    · rw [if_pos hc, if_pos hc]
      simp [shiftTokL, shiftTok, Token.separator.injEq]
      all_goals omega
    · rw [if_neg hc, if_neg hc]
      simp [shiftTokL]

/-- Stage shifts: the leading negate. -/
theorem negStage_shift (rem : List Char) (p d : Nat) :
    negStage rem (p + d) =
      (shiftTokL d (negStage rem p).1, (negStage rem p).2.1,
       (negStage rem p).2.2 + d) := by
  unfold negStage
  cases rem with
  | nil => simp [shiftTokL]
  | cons c rest =>
    simp only []
    by_cases hc : c = '!'
    · rw [if_pos hc, if_pos hc]
      simp [shiftTokL, shiftTok, Token.negate.injEq]
      all_goals omega
    · rw [if_neg hc, if_neg hc]
      simp [shiftTokL]

/-- The path tail at a shifted position produces shifted spans. -/
theorem parsePathTail_shift (rem : List Char) (p d : Nat) :
    parsePathTail rem (p + d) =
      (shiftTokL d (parsePathTail rem p).1, (parsePathTail rem p).2.1,
       (parsePathTail rem p).2.2 + d) := by
  unfold parsePathTail
  rw [segStage_shift]
  rcases h1 : segStage rem p with ⟨seg, rem2, p2⟩
  simp only []
  rw [parseSepSegs_shift]
  rcases h2 : parseSepSegs rem2.length rem2 p2 with ⟨mids, rem3, p3⟩
  simp only []
  rw [sepStage_shift]
  rcases h3 : sepStage rem3 p3 with ⟨sep, rem4, p4⟩
  simp only []
  simp [shiftTokL_append]

/-- The path rule at a shifted position produces shifted spans. -/
theorem parsePath_shift (rem : List Char) (p d : Nat) :
    parsePath rem (p + d) =
      (shiftTok d (parsePath rem p).1, (parsePath rem p).2.1,
       (parsePath rem p).2.2 + d) := by
  unfold parsePath
  rw [negStage_shift]
  rcases h1 : negStage rem p with ⟨neg, rem1, p1⟩
  simp only []
  rw [parsePathTail_shift]
  rcases h2 : parsePathTail rem1 p1 with ⟨ts, rem4, p4⟩
  simp only []
  simp [shiftTok, shiftTokL_append]

/-- A line element at a shifted position produces shifted spans. -/
theorem parseElement_shift (rem : List Char) (p d : Nat) :
    parseElement rem (p + d) =
      (shiftTok d (parseElement rem p).1, (parseElement rem p).2.1,
       (parseElement rem p).2.2 + d) := by
  cases rem with
  | nil =>
    rw [parseElement, parseElement]
    exact parsePath_shift [] p d
  | cons c rest =>
    rw [parseElement, parseElement]
    by_cases hc : c = '#'
    · rw [if_pos hc, if_pos hc]
      simp [shiftTok, Token.comment.injEq]
      all_goals omega
    · rw [if_neg hc, if_neg hc]
      exact parsePath_shift (c :: rest) p d

mutual

/-- AST derivation ignores spans: visiting a shifted token gives the
same node. -/
theorem visit_token_shift (d : Nat) (t : Token) :
    AST.visit_token (shiftTok d t) = AST.visit_token t := by
  cases t with
  | file s e cs =>
    rw [shiftTok, AST.visit_token, AST.visit_token,
      visit_tokens_shift d cs]
  | path s e cs =>
    rw [shiftTok, AST.visit_token, AST.visit_token,
      visit_tokens_shift d cs]
  | segment s e v => rfl
  | separator s e => rfl
  | negate s e => rfl
  | comment s e => rfl

/-- List version of `visit_token_shift`. -/
theorem visit_tokens_shift (d : Nat) (ts : List Token) :
    AST.visit_tokens (shiftTokL d ts) = AST.visit_tokens ts := by
  cases ts with
  | nil => rfl
  | cons t rest =>
    rw [shiftTokL, AST.visit_tokens, AST.visit_tokens,
      visit_token_shift d t, visit_tokens_shift d rest]

end

/-- Token visiting distributes over append. -/
theorem visit_tokens_append (a b : List Token) :
    AST.visit_tokens (a ++ b) =
      AST.visit_tokens a ++ AST.visit_tokens b := by
  induction a with
  | nil => rfl
  | cons t rest ih =>
    rw [List.cons_append, AST.visit_tokens, AST.visit_tokens]
    cases AST.visit_token t with
    | none => exact ih
    | some n => rw [ih]; rfl

/-- Newline characters are not segment characters. -/
theorem nl_not_seg (c : Char) (h : isNewlineChar c = true) :
    isSegChar c = false := by
  rw [isSegChar, h]
  simp

/-- Newline characters are not `'/'`, `'!'` or `'#'`. -/
theorem nl_ne (c : Char) (h : isNewlineChar c = true) :
    ¬ c = '/' ∧ ¬ c = '!' ∧ ¬ c = '#' := by
  refine ⟨fun he => ?_, fun he => ?_, fun he => ?_⟩ <;>
    (subst he; exact absurd h (by decide))

/-- The segment parser over an appended boundary: it behaves as on the
first part alone, with the boundary glued back on the remainder. -/
theorem segmentP_append (l r : List Char) (p : Nat)
    (hbr : ∀ c rest, r = c :: rest → isNewlineChar c = true) :
    segmentP (l ++ r) p =
      (match segmentP l p with
       | none => none
       | some (t, rem, q) => some (t, rem ++ r, q)) := by
  have hb : ∀ c rest, r = c :: rest → isSegChar c = false :=
    fun c rest hcr => nl_not_seg c (hbr c rest hcr)
  obtain ⟨htw, hdw⟩ := takeWhile_append_not isSegChar l r hb
  unfold segmentP
  rw [htw, hdw]
  by_cases he : (l.takeWhile isSegChar).isEmpty
  · rw [if_pos he, if_pos he]
  · rw [if_neg he, if_neg he]

/-- The separator-segment loop over an appended boundary. -/
theorem parseSepSegs_append :
    ∀ (n : Nat) (l r : List Char) (p : Nat), l.length ≤ n →
    (∀ c rest, r = c :: rest → isNewlineChar c = true) →
    parseSepSegs (l ++ r).length (l ++ r) p =
      ((parseSepSegs l.length l p).1,
       (parseSepSegs l.length l p).2.1 ++ r,
       (parseSepSegs l.length l p).2.2) := by
  intro n
  induction n with
  | zero =>
    intro l r p hn hbr
    have hl : l = [] := by
      cases l with
      | nil => rfl
      | cons c rest => simp at hn
    subst hl
    rw [List.nil_append]
    rw [parseSepSegs_boundary _ r p (fun _ _ _ _ _ => trivial)
      (fun c rest hcr => (nl_ne c (hbr c rest hcr)).1)]
    rfl
  | succ n ih =>
    intro l r p hn hbr
    cases l with
    | nil =>
      rw [List.nil_append]
      rw [parseSepSegs_boundary _ r p (fun _ _ _ _ _ => trivial)
        (fun c rest hcr => (nl_ne c (hbr c rest hcr)).1)]
      rfl
    | cons c l' =>
      rw [List.cons_append]
      rw [parseSepSegs.eq_def]
      conv_rhs => rw [parseSepSegs.eq_def]
      simp only [List.length_cons]
      by_cases hc : c = '/'
      · rw [if_pos hc, if_pos hc]
        rw [segmentP_append l' r (p + 1) hbr]
        cases hseg : segmentP l' (p + 1) with
        | none => rfl
        | some v =>
          obtain ⟨t1, r1, q1⟩ := v
          simp only []
          have hlt := segmentP_lt l' (p + 1) t1 r1 q1 hseg
          have hf1 : parseSepSegs (l' ++ r).length (r1 ++ r) q1 =
              parseSepSegs (r1 ++ r).length (r1 ++ r) q1 :=
            parseSepSegs_fuel _ _ _ _
              (by simp [List.length_append]; omega) (Nat.le_refl _)
          have hf2 : parseSepSegs l'.length r1 q1 =
              parseSepSegs r1.length r1 q1 :=
            parseSepSegs_fuel _ _ _ _ (by omega) (Nat.le_refl _)
          rw [hf1, hf2,
            ih r1 r q1 (by simp only [List.length_cons] at hn; omega) hbr]
      · rw [if_neg hc, if_neg hc]
        rfl

/-- The optional-segment stage over an appended boundary. -/
theorem segStage_append (l r : List Char) (p : Nat)
    (hbr : ∀ c rest, r = c :: rest → isNewlineChar c = true) :
    segStage (l ++ r) p =
      ((segStage l p).1, (segStage l p).2.1 ++ r, (segStage l p).2.2) := by
  unfold segStage
  rw [segmentP_append l r p hbr]
  cases hseg : segmentP l p with
  | none => rfl
  | some v =>
    obtain ⟨t1, r1, q1⟩ := v
    rfl

/-- The trailing-separator stage over an appended boundary. -/
theorem sepStage_append (l r : List Char) (p : Nat)
    (hbr : ∀ c rest, r = c :: rest → isNewlineChar c = true) :
    sepStage (l ++ r) p =
      ((sepStage l p).1, (sepStage l p).2.1 ++ r, (sepStage l p).2.2) := by
  unfold sepStage
  cases l with
  | nil =>
    rw [List.nil_append]
    cases hr : r with
    | nil => rfl
    | cons c rest =>
      simp only []
      rw [if_neg ((nl_ne c (hbr c rest hr)).1)]
  | cons c l' =>
    rw [List.cons_append]
    simp only []
    by_cases hc : c = '/'
    · rw [if_pos hc, if_pos hc]
    · rw [if_neg hc, if_neg hc]
      rfl

/-- The leading-negate stage over an appended boundary. -/
theorem negStage_append (l r : List Char) (p : Nat)
    (hbr : ∀ c rest, r = c :: rest → isNewlineChar c = true) :
    negStage (l ++ r) p =
      ((negStage l p).1, (negStage l p).2.1 ++ r, (negStage l p).2.2) := by
  unfold negStage
  cases l with
  | nil =>
    rw [List.nil_append]
    cases hr : r with
    | nil => rfl
    | cons c rest =>
      simp only []
      rw [if_neg ((nl_ne c (hbr c rest hr)).2.1)]
  | cons c l' =>
    rw [List.cons_append]
    simp only []
    by_cases hc : c = '!'
    · rw [if_pos hc, if_pos hc]
    · rw [if_neg hc, if_neg hc]
      rfl

/-- The path tail over an appended boundary. -/
theorem parsePathTail_append (l r : List Char) (p1 : Nat)
    (hbr : ∀ c rest, r = c :: rest → isNewlineChar c = true) :
    parsePathTail (l ++ r) p1 =
      ((parsePathTail l p1).1, (parsePathTail l p1).2.1 ++ r,
       (parsePathTail l p1).2.2) := by
  unfold parsePathTail
  rw [segStage_append l r p1 hbr]
  rcases h1 : segStage l p1 with ⟨seg, rem2, p2⟩
  simp only []
  rw [parseSepSegs_append rem2.length rem2 r p2 (Nat.le_refl _) hbr]
  rcases h2 : parseSepSegs rem2.length rem2 p2 with ⟨mids, rem3, p3⟩
  simp only []
  rw [sepStage_append rem3 r p3 hbr]

/-- The path rule over an appended boundary. -/
theorem parsePath_append (l r : List Char) (p : Nat)
    (hbr : ∀ c rest, r = c :: rest → isNewlineChar c = true) :
    parsePath (l ++ r) p =
      ((parsePath l p).1, (parsePath l p).2.1 ++ r,
       (parsePath l p).2.2) := by
  unfold parsePath
  rw [negStage_append l r p hbr]
  rcases h1 : negStage l p with ⟨neg, rem1, p1⟩
  simp only []
  rw [parsePathTail_append rem1 r p1 hbr]

/-- A line element over an appended boundary. -/
theorem parseElement_append (l r : List Char) (p : Nat)
    (hbr : ∀ c rest, r = c :: rest → isNewlineChar c = true) :
    parseElement (l ++ r) p =
      ((parseElement l p).1, (parseElement l p).2.1 ++ r,
       (parseElement l p).2.2) := by
  cases l with
  | nil =>
    rw [List.nil_append]
    cases hr : r with
    | nil => rfl
    | cons c rest =>
      rw [parseElement, parseElement]
      rw [if_neg ((nl_ne c (hbr c rest hr)).2.2)]
      have := parsePath_append [] (c :: rest) p
        (fun c' r' h' => hbr c' r' (by rw [hr, h']))
      rw [List.nil_append] at this
      exact this
  | cons a l' =>
    rw [List.cons_append, parseElement, parseElement]
    by_cases ha : a = '#'
    · rw [if_pos ha, if_pos ha]
      have hb : ∀ c rest, r = c :: rest →
          (fun c => !(isNewlineChar c)) c = false := by
        intro c rest hcr
        simp [hbr c rest hcr]
      obtain ⟨htw, hdw⟩ :=
        takeWhile_append_not (fun c => !(isNewlineChar c)) l' r hb
      rw [htw, hdw]
    · rw [if_neg ha, if_neg ha]
      exact parsePath_append (a :: l') r p hbr

/-- `newlineP` consumes at least one and exactly `k` characters. -/
theorem newlineP_length (rem rest : List Char) (k : Nat)
    (h : newlineP rem = some (rest, k)) :
    rest.length + k = rem.length ∧ 1 ≤ k := by
  cases rem with
  | nil => simp [newlineP] at h
  | cons c r =>
    rw [newlineP.eq_def] at h
    simp only [] at h
    by_cases hc : c = '\r'
    · rw [if_pos hc] at h
      cases r with
      | nil =>
        simp only [Option.some.injEq, Prod.mk.injEq] at h
        obtain ⟨h1, h2⟩ := h
        subst h1
        subst h2
        exact ⟨rfl, Nat.le_refl _⟩
      | cons c2 r2 =>
        simp only [] at h
        by_cases hc2 : c2 = '\n'
        · rw [if_pos hc2] at h
          simp only [Option.some.injEq, Prod.mk.injEq] at h
          obtain ⟨h1, h2⟩ := h
          subst h1
          subst h2
          exact ⟨by simp, by omega⟩
        · rw [if_neg hc2] at h
          simp only [Option.some.injEq, Prod.mk.injEq] at h
          obtain ⟨h1, h2⟩ := h
          subst h1
          subst h2
          exact ⟨by simp, Nat.le_refl _⟩
    · rw [if_neg hc] at h
      by_cases hn : isNewlineChar c = true
      · rw [if_pos hn] at h
        simp only [Option.some.injEq, Prod.mk.injEq] at h
        obtain ⟨h1, h2⟩ := h
        subst h1
        subst h2
        exact ⟨by simp, Nat.le_refl _⟩
      · rw [if_neg hn] at h
        simp at h

/-- A newline character at the head always makes `newlineP` succeed. -/
theorem newlineP_isSome (c : Char) (t : List Char)
    (h : isNewlineChar c = true) :
    ∃ rest k, newlineP (c :: t) = some (rest, k) := by
  rw [newlineP.eq_def]
  simp only []
  by_cases hc : c = '\r'
  · rw [if_pos hc]
    cases t with
    | nil => exact ⟨[], 1, rfl⟩
    | cons c2 r2 =>
      simp only []
      by_cases hc2 : c2 = '\n'
      · rw [if_pos hc2]
        exact ⟨r2, 2, rfl⟩
      · rw [if_neg hc2]
        exact ⟨c2 :: r2, 1, rfl⟩
  · rw [if_neg hc, if_pos h]
    exact ⟨t, 1, rfl⟩

/-- A line with no newline characters splits into that single line. -/
theorem splitLines_noNl_eq (l : List Char) (h : noNl l = true) :
    splitLines l = [l] := by
  induction l with
  | nil => rfl
  | cons c rest ih =>
    rw [noNl, List.all_cons, Bool.and_eq_true] at h
    obtain ⟨h1, h2⟩ := h
    have hcn : isNewlineChar c = false := by simpa using h1
    have hcr : ¬ c = '\r' := by
      intro hx
      rw [hx] at hcn
      exact absurd hcn (by decide)
    rw [splitLines]
    rw [if_neg hcr, if_neg (by simp [hcn])]
    rw [ih h2]

/-- Right after a `'\r'`, if the next character is not `'\n'` the
continuation agrees with the plain splitter. -/
theorem splitAfterCR_eq (x : List Char)
    (h : ∀ c t, x = c :: t → ¬ c = '\n') :
    splitAfterCR x = splitLines x := by
  cases x with
  | nil => rfl
  | cons c t =>
    rw [splitAfterCR, splitLines]
    rw [if_neg (h c t rfl)]

/-- Splitting a newline-free line followed by a newline terminator peels
off exactly that line. -/
theorem splitLines_append_newline (l r rest : List Char) (k : Nat)
    (hl : noNl l = true) (hr : newlineP r = some (rest, k)) :
    splitLines (l ++ r) = l :: splitLines rest := by
  induction l with
  | nil =>
    rw [List.nil_append]
    cases r with
    | nil => simp [newlineP] at hr
    | cons c t =>
      rw [newlineP.eq_def] at hr
      simp only [] at hr
      rw [splitLines]
      by_cases hc : c = '\r'
      · rw [if_pos hc] at hr
        rw [if_pos hc]
        cases t with
        | nil =>
          simp only [Option.some.injEq, Prod.mk.injEq] at hr
          obtain ⟨h1, _⟩ := hr
          subst h1
          rfl
        | cons c2 t2 =>
          simp only [] at hr
          by_cases hc2 : c2 = '\n'
          · rw [if_pos hc2] at hr
            simp only [Option.some.injEq, Prod.mk.injEq] at hr
            obtain ⟨h1, _⟩ := hr
            subst h1
            rw [splitAfterCR, if_pos hc2]
          · rw [if_neg hc2] at hr
            simp only [Option.some.injEq, Prod.mk.injEq] at hr
            obtain ⟨h1, _⟩ := hr
            subst h1
            rw [splitAfterCR_eq (c2 :: t2)
              (fun c' t' he => by
                injection he with he1 he2
                rw [← he1]
                exact hc2)]
      · rw [if_neg hc] at hr
        by_cases hn : isNewlineChar c = true
        · rw [if_pos hn] at hr
          simp only [Option.some.injEq, Prod.mk.injEq] at hr
          obtain ⟨h1, _⟩ := hr
          subst h1
          rw [if_neg hc, if_pos hn]
        · rw [if_neg hn] at hr
          simp at hr
  | cons a l' ih =>
    rw [noNl, List.all_cons, Bool.and_eq_true] at hl
    obtain ⟨h1, h2⟩ := hl
    have han : isNewlineChar a = false := by simpa using h1
    have har : ¬ a = '\r' := by
      intro hx
      rw [hx] at han
      exact absurd han (by decide)
    rw [List.cons_append, splitLines]
    rw [if_neg har, if_neg (by simp [han])]
    rw [ih h2]

/-- Any input splits as its first newline-free line followed by the lines
after the first terminator. -/
theorem splitLines_decomp (x : List Char) :
    splitLines x =
      x.takeWhile (fun c => !(isNewlineChar c)) ::
        linesAfter (x.dropWhile (fun c => !(isNewlineChar c))) := by
  have hnl : noNl (x.takeWhile (fun c => !(isNewlineChar c))) = true := by
    rw [noNl, List.all_eq_true]
    intro c hc
    simpa using List.mem_takeWhile_imp (p := fun c => !(isNewlineChar c)) hc
  have hx : x = x.takeWhile (fun c => !(isNewlineChar c)) ++
      x.dropWhile (fun c => !(isNewlineChar c)) :=
    (List.takeWhile_append_dropWhile (fun c => !(isNewlineChar c)) x).symm
  cases hd : x.dropWhile (fun c => !(isNewlineChar c)) with
  | nil =>
    have hx2 : x = x.takeWhile (fun c => !(isNewlineChar c)) := by
      conv_lhs => rw [hx, hd]
      rw [List.append_nil]
    have h2 : linesAfter ([] : List Char) = [] := rfl
    rw [h2]
    conv_lhs => rw [hx2]
    exact splitLines_noNl_eq _ hnl
  | cons c t =>
    have hcn : isNewlineChar c = true := by
      have := dropWhile_head_not (fun c => !(isNewlineChar c)) x c t hd
      simpa using this
    obtain ⟨rest, k, hnp⟩ := newlineP_isSome c t hcn
    have hla : linesAfter (c :: t) = splitLines rest := by
      rw [linesAfter, hnp]
    rw [hla]
    conv_lhs => rw [hx, hd]
    exact splitLines_append_newline _ _ rest k hnl hnp

/-- Every line produced by the splitter is free of newline characters. -/
theorem splitLines_lines_noNl :
    ∀ (n : Nat) (x : List Char), x.length ≤ n →
      (∀ l ∈ splitLines x, noNl l = true) ∧
      (∀ l ∈ splitAfterCR x, noNl l = true) := by
  intro n
  induction n with
  | zero =>
    intro x hx
    have : x = [] := by
      cases x with
      | nil => rfl
      | cons a b => simp at hx
    subst this
    constructor
    · intro l hl
      have : l = [] := by simpa [splitLines] using hl
      rw [this]
      rfl
    · intro l hl
      have : l = [] := by simpa [splitAfterCR] using hl
      rw [this]
      rfl
  | succ n ih =>
    intro x hx
    cases x with
    | nil =>
      constructor
      · intro l hl
        have : l = [] := by simpa [splitLines] using hl
        rw [this]
        rfl
      · intro l hl
        have : l = [] := by simpa [splitAfterCR] using hl
        rw [this]
        rfl
    | cons c rest =>
      have hr : rest.length ≤ n := by
        simp at hx
        omega
      obtain ⟨ih1, ih2⟩ := ih rest hr
      have main : ∀ l, (l = [] ∨ l ∈ splitAfterCR rest) ∨
          (l = [] ∨ l ∈ splitLines rest) ∨
          (isNewlineChar c = false ∧
            (l = [c] ∨
             (∃ l0 ls, splitLines rest = l0 :: ls ∧
               (l = c :: l0 ∨ l ∈ ls)))) →
          noNl l = true := by
        intro l hl
        rcases hl with (h | h) | (h | h) | ⟨hcn, h | ⟨l0, ls, hsr, h | h⟩⟩
        · rw [h]; rfl
        · exact ih2 l h
        · rw [h]; rfl
        · exact ih1 l h
        · rw [h, noNl, List.all_cons]
          simp [hcn]
        · have h0 : noNl l0 = true := ih1 l0 (by rw [hsr]; exact List.mem_cons_self _ _)
          rw [h, noNl, List.all_cons, Bool.and_eq_true]
          exact ⟨by simp [hcn], h0⟩
        · exact ih1 l (by rw [hsr]; exact List.mem_cons_of_mem _ h)
      constructor
      · intro l hl
        apply main l
        rw [splitLines] at hl
        by_cases hc : c = '\r'
        · rw [if_pos hc] at hl
          exact Or.inl (List.mem_cons.mp hl)
        · rw [if_neg hc] at hl
          by_cases hn : isNewlineChar c = true
          · rw [if_pos hn] at hl
            exact Or.inr (Or.inl (List.mem_cons.mp hl))
          · rw [if_neg hn] at hl
            refine Or.inr (Or.inr ⟨by simpa using hn, ?_⟩)
            cases hsr : splitLines rest with
            | nil =>
              rw [hsr] at hl
              simp only [] at hl
              exact Or.inl (by simpa using hl)
            | cons l0 ls =>
              rw [hsr] at hl
              simp only [] at hl
              exact Or.inr ⟨l0, ls, rfl, List.mem_cons.mp hl⟩
      · intro l hl
        apply main l
        rw [splitAfterCR] at hl
        by_cases hnl2 : c = '\n'
        · rw [if_pos hnl2] at hl
          exact Or.inr (Or.inl (Or.inr hl))
        · rw [if_neg hnl2] at hl
          by_cases hc : c = '\r'
          · rw [if_pos hc] at hl
            exact Or.inl (List.mem_cons.mp hl)
          · rw [if_neg hc] at hl
            by_cases hn : isNewlineChar c = true
            · rw [if_pos hn] at hl
              exact Or.inr (Or.inl (List.mem_cons.mp hl))
            · rw [if_neg hn] at hl
              refine Or.inr (Or.inr ⟨by simpa using hn, ?_⟩)
              cases hsr : splitLines rest with
              | nil =>
                rw [hsr] at hl
                simp only [] at hl
                exact Or.inl (by simpa using hl)
              | cons l0 ls =>
                rw [hsr] at hl
                simp only [] at hl
                exact Or.inr ⟨l0, ls, rfl, List.mem_cons.mp hl⟩

/-- The first token of a line element parsed at any position visits to the
same AST node as the line parsed in isolation. -/
theorem visit_parseElement_at (l : List Char) (q : Nat) :
    AST.visit_token (parseElement l q).1 = astLine l := by
  have hs := parseElement_shift l 0 q
  rw [Nat.zero_add] at hs
  calc AST.visit_token (parseElement l q).1
      = AST.visit_token (shiftTok q (parseElement l 0).1) := by rw [hs]
    _ = AST.visit_token (parseElement l 0).1 := visit_token_shift _ _
    _ = astLine l := rfl

/-- Main loop invariant: starting at a line boundary with every remaining
line well formed, the loop consumes the whole input, reports no further
errors, and its collected tokens visit to exactly the per-line AST
contributions in source order. -/
theorem loop_main :
    ∀ (n : Nat) (rem : List Char) (acc : List Token)
      (errs : List ParseError) (p : Nat),
    rem.length ≤ n → atBoundary rem = true →
    (linesAfter rem).all lineOkB = true →
    ∃ ts q, parseLinesLoop n acc errs rem p = (acc ++ ts, errs, [], q) ∧
      AST.visit_tokens ts = (linesAfter rem).filterMap astLine := by
  intro n
  induction n with
  | zero =>
    intro rem acc errs p hn _ _
    have hrem : rem = [] := by
      cases rem with
      | nil => rfl
      | cons a b => simp at hn
    subst hrem
    exact ⟨[], p, by rw [parseLinesLoop, List.append_nil], rfl⟩
  | succ n ih =>
    intro rem acc errs p hn hb hok
    cases hrem : rem with
    | nil =>
      refine ⟨[], p, ?_, rfl⟩
      rw [parseLinesLoop]
      rw [show newlineP [] = none from rfl]
      rw [List.append_nil]
    | cons c rem' =>
      rw [hrem] at hb hn hok
      have hcn : isNewlineChar c = true := hb
      obtain ⟨rest, k, hnp⟩ := newlineP_isSome c rem' hcn
      obtain ⟨hlen, hk⟩ := newlineP_length (c :: rem') rest k hnp
      have hnlL : noNl (rest.takeWhile (fun x => !(isNewlineChar x))) = true := by
        rw [noNl, List.all_eq_true]
        intro a ha
        simpa using List.mem_takeWhile_imp (p := fun x => !(isNewlineChar x)) ha
      have hbrT : ∀ c' r',
          rest.dropWhile (fun x => !(isNewlineChar x)) = c' :: r' →
          isNewlineChar c' = true := by
        intro c' r' hcr
        have := dropWhile_head_not (fun x => !(isNewlineChar x)) rest c' r' hcr
        simpa using this
      have hbT : atBoundary (rest.dropWhile (fun x => !(isNewlineChar x))) = true := by
        cases hd : rest.dropWhile (fun x => !(isNewlineChar x)) with
        | nil => rfl
        | cons a t => exact hbrT a t hd
      have hla : linesAfter (c :: rem') = splitLines rest := by
        rw [linesAfter, hnp]
      rw [hla, splitLines_decomp rest, List.all_cons, Bool.and_eq_true] at hok
      obtain ⟨hokL, hokT⟩ := hok
      have hpe : parseElement rest (p + k) =
          ((parseElement (rest.takeWhile (fun x => !(isNewlineChar x))) (p + k)).1,
           rest.dropWhile (fun x => !(isNewlineChar x)),
           (parseElement (rest.takeWhile (fun x => !(isNewlineChar x))) (p + k)).2.2) := by
        conv_lhs =>
          rw [← List.takeWhile_append_dropWhile (fun x => !(isNewlineChar x)) rest]
        rw [parseElement_append _ _ _ hbrT,
          parseElement_consume _ _ hnlL hokL, List.nil_append]
      have hlenT : (rest.dropWhile (fun x => !(isNewlineChar x))).length ≤ n := by
        have h1 : (rest.dropWhile (fun x => !(isNewlineChar x))).length ≤
            rest.length :=
          List.IsSuffix.length_le (List.dropWhile_suffix _)
        simp only [List.length_cons] at hlen hn
        omega
      obtain ⟨ts', q, hloop, hvis⟩ := ih
        (rest.dropWhile (fun x => !(isNewlineChar x)))
        (acc ++ [(parseElement (rest.takeWhile (fun x => !(isNewlineChar x))) (p + k)).1])
        errs
        ((parseElement (rest.takeWhile (fun x => !(isNewlineChar x))) (p + k)).2.2)
        hlenT hbT hokT
      refine ⟨(parseElement (rest.takeWhile (fun x => !(isNewlineChar x))) (p + k)).1 :: ts',
        q, ?_, ?_⟩
      · rw [parseLinesLoop, hnp]
        simp only []
        rw [hpe]
        simp only []
        rw [hloop, List.append_assoc]
        rfl
      · rw [hla, splitLines_decomp rest, List.filterMap_cons]
        rw [AST.visit_tokens, visit_parseElement_at]
        cases hA : astLine (rest.takeWhile (fun x => !(isNewlineChar x))) with
        | none =>
          simp only []
          exact hvis
        | some nd =>
          simp only []
          rw [hvis]

/-- A packed character list is empty as a string exactly when the list is
empty. -/
theorem mk_isEmpty (l : List Char) : (String.mk l).isEmpty = l.isEmpty := by
  cases l with
  | nil => rfl
  | cons c cs =>
    show (String.mk (c :: cs)).isEmpty = false
    rw [String.isEmpty]
    simp [String.endPos, String.utf8ByteSize, String.utf8ByteSize.go]
    intro h
    rw [String.Pos.ext_iff] at h
    simp at h
    have := Char.utf8Size_pos c
    omega

/-- `str::trim` erases a run exactly when the run is all whitespace. -/
theorem rustTrim_nil_iff (l : List Char) :
    rustTrim l = [] ↔ l.all isRustWhitespace = true := by
  rw [rustTrim, List.reverse_eq_nil_iff, List.dropWhile_eq_nil_iff,
    List.all_eq_true]
  constructor
  · intro h a ha
    have hmem : a ∈ l.takeWhile isRustWhitespace ∨
        a ∈ l.dropWhile isRustWhitespace := by
      rw [← List.mem_append, List.takeWhile_append_dropWhile]
      exact ha
    rcases hmem with h2 | h2
    · exact List.mem_takeWhile_imp h2
    · exact h a (List.mem_reverse.mpr h2)
  · intro h a ha
    exact h a ((List.dropWhile_suffix _).subset (List.mem_reverse.mp ha))

/-- Inside a segment run, a character qualifies exactly when it is not
whitespace. -/
theorem any_good_of_seg (t : List Char)
    (h : ∀ x ∈ t, isSegChar x = true) :
    t.any (fun x => !(x == '/') && !(isRustWhitespace x)) =
      !(t.all isRustWhitespace) := by
  induction t with
  | nil => rfl
  | cons c r ih =>
    have hc := h c (List.mem_cons_self _ _)
    have hcs : (c == '/') = false := by
      rw [isSegChar, Bool.and_eq_true] at hc
      simpa using hc.1
    rw [List.any_cons, List.all_cons,
      ih (fun x hx => h x (List.mem_cons_of_mem _ hx))]
    simp [hcs, Bool.not_and]

/-- Emptiness of a parsed segment value, reduced to the source run. -/
theorem seg_value_isEmpty (taken : List Char) :
    (String.mk (rustTrim taken)).isEmpty = taken.all isRustWhitespace := by
  rw [mk_isEmpty]
  cases hall : taken.all isRustWhitespace with
  | true =>
    rw [List.isEmpty_iff]
    exact (rustTrim_nil_iff taken).mpr hall
  | false =>
    cases hie : (rustTrim taken).isEmpty with
    | false => rfl
    | true =>
      have h2 := (rustTrim_nil_iff taken).mp (List.isEmpty_iff.mp hie)
      rw [h2] at hall
      simp at hall

/-- AST contribution of the separator-segment loop plus the trailing
separator: the visited nodes are empty exactly when the consumed input has
no qualifying character. -/
theorem sepSegsSep_nodes :
    ∀ (n : Nat) (l2 : List Char) (p2 : Nat), l2.length ≤ n →
    noNl l2 = true →
    (∀ c r, l2 = c :: r → isSegChar c = false) →
    hasDoubleSlash l2 = false →
    (let (mids, rem3, p3) := parseSepSegs l2.length l2 p2
     (AST.visit_tokens (mids ++ (sepStage rem3 p3).1)).isEmpty) =
      !(l2.any (fun x => !(x == '/') && !(isRustWhitespace x))) := by
  intro n
  induction n with
  | zero =>
    intro l2 p2 hn _ _ _
    have : l2 = [] := by
      cases l2 with
      | nil => rfl
      | cons c r => simp at hn
    subst this
    rfl
  | succ n ih =>
    intro l2 p2 hn hnl hhead hds
    cases l2 with
    | nil => rfl
    | cons c rest =>
      have hcslash : c = '/' := by
        have h1 := hhead c rest rfl
        rw [isSegChar] at h1
        rcases Bool.and_eq_false_iff.mp h1 with h2 | h2
        · simpa using h2
        · exfalso
          rw [noNl, List.all_eq_true] at hnl
          have := hnl c (by simp)
          simp only [Bool.not_eq_true'] at this
          rw [this] at h2
          simp at h2
      subst hcslash
      rw [parseSepSegs.eq_def]
      simp only [List.length_cons, if_true]
      cases hseg : segmentP rest (p2 + 1) with
      | none =>
        cases hr : rest with
        | nil => rfl
        | cons c2 r2 =>
          subst hr
          unfold segmentP at hseg
          by_cases he : ((c2 :: r2).takeWhile isSegChar).isEmpty
          · have hc2 : isSegChar c2 = false := by
              apply takeWhile_nil_head isSegChar (c2 :: r2) c2 r2 rfl
              simpa [List.isEmpty_iff] using he
            rw [isSegChar] at hc2
            rcases Bool.and_eq_false_iff.mp hc2 with h2 | h2
            · exfalso
              rw [hasDoubleSlash.eq_def] at hds
              simp only [] at hds
              simp only [Bool.or_eq_false_iff] at hds
              obtain ⟨hds1, _⟩ := hds
              rw [Bool.and_eq_false_iff] at hds1
              rcases hds1 with h3 | h3
              · simp at h3
              · have hcc : c2 = '/' := by simpa using h2
                rw [hcc] at h3
                simp at h3
            · exfalso
              rw [noNl, List.all_eq_true] at hnl
              have := hnl c2 (by simp)
              simp only [Bool.not_eq_true'] at this
              rw [this] at h2
              simp at h2
          · rw [if_neg he] at hseg
            simp at hseg
      | some v =>
        obtain ⟨t1, r1, q1⟩ := v
        simp only []
        have hlt := segmentP_lt rest (p2 + 1) t1 r1 q1 hseg
        have he : ¬ (rest.takeWhile isSegChar).isEmpty = true := by
          intro hx
          unfold segmentP at hseg
          rw [if_pos hx] at hseg
          simp at hseg
        have hsege := hseg
        unfold segmentP at hsege
        rw [if_neg he] at hsege
        simp only [Option.some.injEq, Prod.mk.injEq] at hsege
        obtain ⟨h1, h2, h3⟩ := hsege
        subst h1
        have hr1 : r1 = rest.dropWhile isSegChar := h2.symm
        have htd : rest.takeWhile isSegChar ++ r1 = rest := by
          rw [hr1]
          exact List.takeWhile_append_dropWhile _ _
        have htakenseg : ∀ x ∈ rest.takeWhile isSegChar, isSegChar x = true :=
          fun x hx => List.mem_takeWhile_imp hx
        have hsuffix : r1 <:+ ('/' :: rest) := by
          rw [hr1]
          exact (List.dropWhile_suffix isSegChar).trans
            (List.suffix_cons '/' rest)
        have hnl1 : noNl r1 = true := noNl_suffix _ _ hnl hsuffix
        have hhead1 : ∀ c r, r1 = c :: r → isSegChar c = false := by
          intro c r hcr
          exact dropWhile_head_not isSegChar rest c r (hr1 ▸ hcr)
        have hds1 : hasDoubleSlash r1 = false := by
          cases hx : hasDoubleSlash r1 with
          | false => rfl
          | true => rw [dslash_suffix _ _ hsuffix hx] at hds; exact hds
        have hfin := ih r1 q1 (by simp at hn; omega) hnl1 hhead1 hds1
        rcases hrec : parseSepSegs r1.length r1 q1 with ⟨mids, rem3, p3⟩
        have hfuel : parseSepSegs rest.length r1 q1 =
            parseSepSegs r1.length r1 q1 :=
          parseSepSegs_fuel rest.length r1.length r1 q1 (by omega)
            (Nat.le_refl _)
        rw [hfuel, hrec]
        rw [hrec] at hfin
        simp only [] at hfin ⊢
        rw [List.cons_append, List.cons_append]
        rw [AST.visit_tokens]
        rw [show AST.visit_token (Token.separator p2 (p2 + 1)) = none from rfl]
        simp only []
        rw [AST.visit_tokens]
        rw [AST.visit_token, seg_value_isEmpty]
        cases hall : (rest.takeWhile isSegChar).all isRustWhitespace with
        | true =>
          rw [if_pos rfl]
          simp only []
          rw [hfin]
          rw [List.any_cons, ← htd, List.any_append]
          rw [any_good_of_seg _ htakenseg, hall]
          simp
        | false =>
          rw [if_neg (by simp)]
          simp only []
          rw [List.any_cons, ← htd, List.any_append]
          rw [any_good_of_seg _ htakenseg, hall]
          simp

/-- AST contribution of the whole path tail on a well-formed line. -/
theorem pathTail_nodes (l : List Char) (p1 : Nat)
    (hnl : noNl l = true) (hds : hasDoubleSlash l = false) :
    (AST.visit_tokens (parsePathTail l p1).1).isEmpty =
      !(l.any (fun x => !(x == '/') && !(isRustWhitespace x))) := by
  unfold parsePathTail segStage
  cases hseg : segmentP l p1 with
  | none =>
    simp only []
    have hhead : ∀ c r, l = c :: r → isSegChar c = false := by
      intro c r hcr
      unfold segmentP at hseg
      by_cases he : (l.takeWhile isSegChar).isEmpty
      · exact takeWhile_nil_head isSegChar l c r hcr
          (by simpa [List.isEmpty_iff] using he)
      · rw [if_neg he] at hseg
        simp at hseg
    have hfin := sepSegsSep_nodes l.length l p1 (Nat.le_refl _) hnl hhead hds
    rcases hrec : parseSepSegs l.length l p1 with ⟨mids, rem3, p3⟩
    rw [hrec] at hfin
    simp only [] at hfin ⊢
    rw [List.nil_append]
    exact hfin
  | some v =>
    obtain ⟨t1, r1, q1⟩ := v
    simp only []
    have he : ¬ (l.takeWhile isSegChar).isEmpty = true := by
      intro hx
      unfold segmentP at hseg
      rw [if_pos hx] at hseg
      simp at hseg
    have hsege := hseg
    unfold segmentP at hsege
    rw [if_neg he] at hsege
    simp only [Option.some.injEq, Prod.mk.injEq] at hsege
    obtain ⟨h1, h2, h3⟩ := hsege
    subst h1
    have hr1 : r1 = l.dropWhile isSegChar := h2.symm
    have htd : l.takeWhile isSegChar ++ r1 = l := by
      rw [hr1]
      exact List.takeWhile_append_dropWhile _ _
    have htakenseg : ∀ x ∈ l.takeWhile isSegChar, isSegChar x = true :=
      fun x hx => List.mem_takeWhile_imp hx
    have hsuffix : r1 <:+ l := by
      rw [hr1]
      exact List.dropWhile_suffix isSegChar
    have hnl1 : noNl r1 = true := noNl_suffix _ _ hnl hsuffix
    have hhead1 : ∀ c r, r1 = c :: r → isSegChar c = false := by
      intro c r hcr
      exact dropWhile_head_not isSegChar l c r (hr1 ▸ hcr)
    have hds1 : hasDoubleSlash r1 = false := by
      cases hx : hasDoubleSlash r1 with
      | false => rfl
      | true => rw [dslash_suffix _ _ hsuffix hx] at hds; exact hds
    have hfin := sepSegsSep_nodes r1.length r1 q1 (Nat.le_refl _) hnl1
      hhead1 hds1
    rcases hrec : parseSepSegs r1.length r1 q1 with ⟨mids, rem3, p3⟩
    rw [hrec] at hfin
    simp only [] at hfin ⊢
    simp only [List.cons_append, List.nil_append]
    rw [AST.visit_tokens.eq_def]
    simp only []
    rw [AST.visit_token, seg_value_isEmpty]
    cases hall : (l.takeWhile isSegChar).all isRustWhitespace with
    | true =>
      rw [if_pos rfl]
      simp only []
      rw [hfin]
      rw [← htd, List.any_append]
      rw [any_good_of_seg _ htakenseg, hall]
      simp
    | false =>
      rw [if_neg (by simp)]
      simp only []
      rw [← htd, List.any_append]
      rw [any_good_of_seg _ htakenseg, hall]
      simp

/-- On a well-formed newline-free line, the per-line AST contribution is
present exactly when the line qualifies. -/
theorem astLine_qualifies (l : List Char)
    (hnl : noNl l = true) (hok : lineOkB l = true) :
    (astLine l).isSome = qualifiesB l := by
  cases l with
  | nil => rfl
  | cons c rest =>
    rw [astLine, qualifiesB]
    by_cases hc : c = '#'
    · rw [if_pos hc]
      rw [parseElement, if_pos hc]
      rfl
    · rw [if_neg hc]
      rw [parseElement, if_neg hc]
      have hds : hasDoubleSlash (c :: rest) = false := by
        rw [lineOkB, if_neg hc] at hok
        simpa using hok
      unfold parsePath negStage
      simp only []
      by_cases hneg : c = '!'
      · rw [if_pos hneg]
        simp only []
        rcases h2 : parsePathTail rest (0 + 1) with ⟨ts, rem4, p4⟩
        simp only []
        rw [List.cons_append, AST.visit_token]
        rw [AST.visit_tokens]
        rw [show AST.visit_token (Token.negate 0 (0 + 1)) =
          some Node.negate from rfl]
        simp only []
        rw [List.any_cons, hneg]
        simp
        exact Or.inl (by decide)
      · rw [if_neg hneg]
        simp only []
        have hptn := pathTail_nodes (c :: rest) 0 hnl hds
        rcases h2 : parsePathTail (c :: rest) 0 with ⟨ts, rem4, p4⟩
        rw [h2] at hptn
        simp only [] at hptn
        simp only []
        rw [List.nil_append, AST.visit_token]
        rw [hptn]
        cases hany : (c :: rest).any
            (fun x => !(x == '/') && !(isRustWhitespace x)) with
        | true =>
          rw [hany] at hptn
          rw [if_neg (by simp [hptn])]
          rfl
        | false =>
          rw [hany] at hptn
          rw [if_pos (by simp [hptn])]
          rfl

/-- A visited Path token yields a non-empty AST Path node. -/
theorem visit_path_node (t : Token) (nd : Node) (hp : t.isPath = true)
    (h : AST.visit_token t = some nd) :
    ∃ cs, nd = Node.path cs ∧ cs ≠ [] := by
  cases t with
  | file s e cs => exact absurd hp (by simp [Token.isPath])
  | segment s e v => exact absurd hp (by simp [Token.isPath])
  | separator s e => exact absurd hp (by simp [Token.isPath])
  | negate s e => exact absurd hp (by simp [Token.isPath])
  | comment s e => exact absurd hp (by simp [Token.isPath])
  | path s e cs =>
    rw [AST.visit_token] at h
    by_cases hie : (AST.visit_tokens cs).isEmpty = true
    · rw [if_pos hie] at h
      simp at h
    · rw [if_neg hie] at h
      simp only [Option.some.injEq] at h
      refine ⟨AST.visit_tokens cs, h.symm, ?_⟩
      intro hx
      rw [hx] at hie
      exact hie rfl

/-- Every per-line AST contribution is a non-empty Path node. -/
theorem astLine_isPath (l : List Char) (nd : Node)
    (h : astLine l = some nd) :
    ∃ cs, nd = Node.path cs ∧ cs ≠ [] := by
  rw [astLine] at h
  cases l with
  | nil =>
    have hz : AST.visit_token (parseElement [] 0).1 = none := rfl
    rw [hz] at h
    simp at h
  | cons c rest =>
    rw [parseElement] at h
    by_cases hc : c = '#'
    · rw [if_pos hc] at h
      simp only [] at h
      rw [show AST.visit_token
        (Token.comment 0 (0 + 1 +
          (rest.takeWhile (fun c => !(isNewlineChar c))).length)) =
          none from rfl] at h
      simp at h
    · rw [if_neg hc] at h
      exact visit_path_node _ _ (parsePath_isPath (c :: rest) 0) h

/-- C3 (amended): for every pattern file in which every line is well
formed (a comment line, or a line without a double separator), the parse
returns a tree with an empty error list, and the AST derived from that
tree contains, in source order, exactly one Path node per qualifying line
— a non-comment line containing at least one character that is neither a
separator nor whitespace — and nothing else; blank lines, comment lines
and separator-or-whitespace-only lines contribute no node. -/
theorem c3_theorem (input : String)
    (hok : (splitLines input.data).all lineOkB = true) :
    (∃ q ts,
      ParseTree.generate_from input = (some ⟨Token.file 0 q ts⟩, []) ∧
      AST.generate_from ⟨Token.file 0 q ts⟩ =
        some (Node.file ((splitLines input.data).filterMap astLine))) ∧
    (∀ l ∈ splitLines input.data, (astLine l).isSome = qualifiesB l) ∧
    (∀ nd ∈ (splitLines input.data).filterMap astLine,
      ∃ cs, nd = Node.path cs ∧ cs ≠ []) := by
  refine ⟨?_, ?_, ?_⟩
  · have hsplit := splitLines_decomp input.data
    have hnlL : noNl (input.data.takeWhile (fun x => !(isNewlineChar x))) = true := by
      rw [noNl, List.all_eq_true]
      intro a ha
      simpa using List.mem_takeWhile_imp (p := fun x => !(isNewlineChar x)) ha
    have hbrT : ∀ c' r',
        input.data.dropWhile (fun x => !(isNewlineChar x)) = c' :: r' →
        isNewlineChar c' = true := by
      intro c' r' hcr
      have := dropWhile_head_not (fun x => !(isNewlineChar x)) input.data c' r' hcr
      simpa using this
    have hbT : atBoundary (input.data.dropWhile (fun x => !(isNewlineChar x))) = true := by
      cases hd : input.data.dropWhile (fun x => !(isNewlineChar x)) with
      | nil => rfl
      | cons a t => exact hbrT a t hd
    rw [hsplit, List.all_cons, Bool.and_eq_true] at hok
    obtain ⟨hokL, hokT⟩ := hok
    have hpe : parseElement input.data 0 =
        ((parseElement (input.data.takeWhile (fun x => !(isNewlineChar x))) 0).1,
         input.data.dropWhile (fun x => !(isNewlineChar x)),
         (parseElement (input.data.takeWhile (fun x => !(isNewlineChar x))) 0).2.2) := by
      conv_lhs =>
        rw [← List.takeWhile_append_dropWhile (fun x => !(isNewlineChar x)) input.data]
      rw [parseElement_append _ _ _ hbrT,
        parseElement_consume _ _ hnlL hokL, List.nil_append]
    have hlenT : (input.data.dropWhile (fun x => !(isNewlineChar x))).length ≤
        input.data.length + 1 := by
      have := List.IsSuffix.length_le
        (List.dropWhile_suffix (fun x => !(isNewlineChar x)) (l := input.data))
      omega
    obtain ⟨ts', q, hloop, hvis⟩ := loop_main (input.data.length + 1)
      (input.data.dropWhile (fun x => !(isNewlineChar x)))
      [(parseElement (input.data.takeWhile (fun x => !(isNewlineChar x))) 0).1]
      []
      ((parseElement (input.data.takeWhile (fun x => !(isNewlineChar x))) 0).2.2)
      hlenT hbT hokT
    have hpf : parseFile input.data =
        (Token.file 0 q
          ((parseElement (input.data.takeWhile (fun x => !(isNewlineChar x))) 0).1 :: ts'),
         [], [], q) := by
      rw [parseFile, hpe]
      simp only []
      rw [hloop]
      rfl
    refine ⟨q,
      (parseElement (input.data.takeWhile (fun x => !(isNewlineChar x))) 0).1 :: ts',
      ?_, ?_⟩
    · rw [ParseTree.generate_from, hpf]
      rfl
    · rw [AST.generate_from]
      rw [show (⟨Token.file 0 q
        ((parseElement (input.data.takeWhile (fun x => !(isNewlineChar x))) 0).1 :: ts')⟩ :
          ParseTree).root =
        Token.file 0 q
          ((parseElement (input.data.takeWhile (fun x => !(isNewlineChar x))) 0).1 :: ts')
        from rfl]
      rw [AST.visit_token]
      rw [AST.visit_tokens]
      rw [show AST.visit_token
          (parseElement (input.data.takeWhile (fun x => !(isNewlineChar x))) 0).1 =
        astLine (input.data.takeWhile (fun x => !(isNewlineChar x))) from rfl]
      rw [hvis, hsplit, List.filterMap_cons]
      cases hA : astLine (input.data.takeWhile (fun x => !(isNewlineChar x))) with
      | none => rfl
      | some nd => rfl
  · intro l hl
    have hnl := (splitLines_lines_noNl input.data.length input.data
      (Nat.le_refl _)).1 l hl
    have hlok := List.all_eq_true.mp hok l hl
    exact astLine_qualifies l hnl hlok
  · intro nd hnd
    obtain ⟨l, _, ha⟩ := List.mem_filterMap.mp hnd
    exact astLine_isPath l nd ha

/-- Instantiation of the amended C3 on a concrete four-line file mixing a
path line, a comment line, a blank line and a whitespace-led path line. -/
theorem c3_witness :
    (splitLines "a/b\r\n#c\n\n x".data).all lineOkB = true ∧
    ((∃ q ts,
      ParseTree.generate_from "a/b\r\n#c\n\n x" = (some ⟨Token.file 0 q ts⟩, []) ∧
      AST.generate_from ⟨Token.file 0 q ts⟩ =
        some (Node.file ((splitLines "a/b\r\n#c\n\n x".data).filterMap astLine))) ∧
    (∀ l ∈ splitLines "a/b\r\n#c\n\n x".data, (astLine l).isSome = qualifiesB l) ∧
    (∀ nd ∈ (splitLines "a/b\r\n#c\n\n x".data).filterMap astLine,
      ∃ cs, nd = Node.path cs ∧ cs ≠ [])) :=
  ⟨rfl, c3_theorem "a/b\r\n#c\n\n x" rfl⟩

end GIU
